import Mathlib

/-!
Shallow embedding of the vercel-scripts CLI (TypeScript sources in src/):
the script data model, the dependency resolver `sortScripts` (src/script.ts),
the git worktree porcelain parser `listWorktrees` (src/script.ts), the
parameter resolver and run orchestrator loops of `main` (src/main.ts, which
contains a current and a legacy variant of the resolver), and the config
persistence logic (`createConfig`).  Theorems at the end of the file settle
the specification claims against these definitions.
-/

set_option maxHeartbeats 1000000

namespace VSS

/-- A JSON-ish value as stored in the two parameter stores (args / opts).
JS `undefined` is represented by absence from the store, not by a `Value`. -/
inductive Value
  | str (s : String)
  | bool (b : Bool)
  | null
deriving DecidableEq, Repr

/-- JS truthiness of a stored value: nonempty string or `true`; `null` is falsy. -/
def Value.truthy : Value → Bool
  | .str s => !(s == "")
  | .bool b => b
  | .null => false

/-- A JS object used as a key/value store (`Record<string, unknown>`),
modelled as an association list whose keys are unique by construction. -/
abbrev Store := List (String × Value)

/-- Property read `store[k]`: first binding of the key, `none` for JS `undefined`. -/
def storeGet : Store → String → Option Value
  | [], _ => none
  | (k', v) :: rest, k => if k' == k then some v else storeGet rest k

/-- Property write `store[k] = v`: replace the first binding or append a new one. -/
def storeSet (st : Store) (k : String) (v : Value) : Store :=
  match st with
  | [] => [(k, v)]
  | (k', v') :: rest => if k' == k then (k, v) :: rest else (k', v') :: storeSet rest k v

/-- Script argument record (`ScriptArgSchema` in src/script.ts). -/
structure ScriptArg where
  name : String
  description : String
deriving DecidableEq, Repr

/-- Script option record (`ScriptOptSchema` in src/script.ts), a discriminated
union over the `type` field. -/
inductive ScriptOpt
  | boolean (name description : String) (dflt : Option Bool) (optional : Option Bool)
  | worktree (name description : String) (dflt : Option String) (baseDirArg : String)
      (optional : Option Bool)
  | strOpt (name description : String) (dflt : Option String) (optional : Option Bool)
      (pattern patternHelp : Option String)
deriving DecidableEq, Repr

/-- The declared name of an option. -/
def ScriptOpt.name : ScriptOpt → String
  | .boolean n _ _ _ => n
  | .worktree n _ _ _ _ => n
  | .strOpt n _ _ _ _ _ => n

/-- A discovered script (`ScriptSchema` in src/script.ts); only the fields the
claims exercise are carried. -/
structure Script where
  name : String := ""
  after : Option (List String) := none
  absolutePathname : String
  pathname : String
  args : Option (List ScriptArg) := none
  opts : Option (List ScriptOpt) := none
deriving DecidableEq, Repr

instance : Inhabited Script := ⟨{ absolutePathname := "", pathname := "" }⟩

/-! ## Git worktree porcelain parser (`listWorktrees` in src/script.ts) -/

/-- A parsed git worktree record. -/
structure Worktree where
  path : String
  branch : String
  HEAD : String
deriving DecidableEq, Repr

/-- Partially assembled worktree record (`Partial<Worktree>` in the source). -/
structure PartialWorktree where
  path : Option String := none
  branch : Option String := none
  HEAD : Option String := none
deriving DecidableEq, Repr

/-- Character-level test that `pat` leads `s` (JS `String.startsWith`). -/
def charsLead : List Char → List Char → Bool
  | [], _ => true
  | _ :: _, [] => false
  | a :: as, b :: bs => a == b && charsLead as bs

/-- Replace the leftmost occurrence of `pat` in a character list by `repl`,
keeping the list unchanged when `pat` never occurs. -/
def replaceFirstChars (pat repl : List Char) : List Char → List Char
  | [] => if charsLead pat [] then repl else []
  | c :: rest =>
    if charsLead pat (c :: rest) then repl ++ (c :: rest).drop pat.length
    else c :: replaceFirstChars pat repl rest

/-- JS `String.replace(pat, repl)` with a string pattern: replace the first
(leftmost) occurrence only. -/
def replaceFirst (s pat repl : String) : String :=
  String.mk (replaceFirstChars pat.data repl.data s.data)

/-- JS `line.startsWith(pat)`. -/
def strStartsWith (s pat : String) : Bool := charsLead pat.data s.data

/-- JS `line.substring(n)`: drop the first `n` characters. -/
def strDrop (s : String) (n : Nat) : String := String.mk (s.data.drop n)

/-- Whitespace characters removed by JS `String.trim` (the ASCII subset,
which is all the porcelain output can contain). -/
def charWhitespace (c : Char) : Bool :=
  c == ' ' || c == '\t' || c == '\n' || c == '\r'

/-- JS `output.trim()`: strip leading and trailing whitespace. -/
def strTrim (s : String) : String :=
  String.mk (((s.data.dropWhile charWhitespace).reverse.dropWhile charWhitespace).reverse)

/-- Split a character list at newline separators, keeping empty pieces
exactly as JS `String.split("\n")` does. -/
def splitNl : List Char → List (List Char)
  | [] => [[]]
  | c :: rest =>
    match splitNl rest with
    | [] => [[]]
    | piece :: pieces =>
      if c == '\n' then [] :: piece :: pieces else (c :: piece) :: pieces

/-- JS `output.split("\n")`. -/
def strLines (s : String) : List String := (splitNl s.data).map String.mk

/-- JS truthiness of an optional string field of a partial record: present and
nonempty (`currentWorktree.path && currentWorktree.HEAD`). -/
def fieldTruthy : Option String → Bool
  | some s => !(s == "")
  | none => false

/-- Flush the current partial record if its `path` and `HEAD` fields are truthy
(the body of the blank-line branch and of the post-loop check). -/
def flushWorktree (cur : PartialWorktree) (acc : List Worktree) : List Worktree :=
  if fieldTruthy cur.path && fieldTruthy cur.HEAD then
    acc ++ [{ path := cur.path.getD ""
              branch := if fieldTruthy cur.branch then cur.branch.getD "" else "(detached)"
              HEAD := cur.HEAD.getD "" }]
  else acc

/-- One iteration of the `for (const line of lines)` loop of `listWorktrees`. -/
def worktreeStep (st : List Worktree × PartialWorktree) (line : String) :
    List Worktree × PartialWorktree :=
  let (acc, cur) := st
  if strStartsWith line "worktree " then
    (acc, { cur with path := some (strDrop line 9) })
  else if strStartsWith line "HEAD " then
    (acc, { cur with HEAD := some (strDrop line 5) })
  else if strStartsWith line "branch " then
    (acc, { cur with branch := some (replaceFirst (strDrop line 7) "refs/heads/" "") })
  else if line == "" then
    (flushWorktree cur acc, {})
  else
    (acc, cur)

/-- The loop of `listWorktrees` over the split lines, including the final
flush that handles a last record with no trailing empty line. -/
def parseWorktreeLines (lines : List String) : List Worktree :=
  let (acc, cur) := lines.foldl worktreeStep ([], {})
  flushWorktree cur acc

/-- Pure core of `listWorktrees` (src/script.ts): trim the subprocess output,
split it on newlines and run the record-assembly loop. -/
def listWorktreesOut (output : String) : List Worktree :=
  parseWorktreeLines (strLines (strTrim output))

/-- The worktree record that a flush of the partial state `cur` would push
(the object literal inside both flush sites of `listWorktrees`). -/
def recordOf (cur : PartialWorktree) : Worktree :=
  { path := cur.path.getD ""
    branch := if fieldTruthy cur.branch then cur.branch.getD "" else "(detached)"
    HEAD := cur.HEAD.getD "" }

/-- The partial record assembled from the lines of one porcelain record
(a maximal blank-free segment), starting from the fresh state the loop has
right after a blank line or at the start of the output. -/
def curOfRecord (rec : List String) : PartialWorktree :=
  (rec.foldl worktreeStep ([], {})).2

/-! ## Dependency resolver (`sortScripts` in src/script.ts)

The file system is abstracted by an existence predicate (`fs.stat` probe) and
`path.join` by string concatenation with a separator, which is all the source
relies on for the paths it forms. -/

/-- Node `path.join(dir, name)` for the simple two-segment joins the resolver
performs. -/
def pathJoin (dir name : String) : String := dir ++ "/" ++ name

/-- Errors thrown by `sortScripts`. -/
inductive SortError
  | afterNotFound (after : String) (referencedBy : List String)
  | circular (orderedPathnames : List String)
deriving DecidableEq, Repr

/-- Append a value to the entry of a key in an insertion-ordered multimap,
creating the entry at the end when absent (JS `Map` update pattern
`afters.set(after, [...(afters.get(after) || []), p])`). -/
def mapAppend (m : List (String × List String)) (k v : String) :
    List (String × List String) :=
  match m with
  | [] => [(k, [v])]
  | (k', vs) :: rest =>
    if k' == k then (k', vs ++ [v]) :: rest else (k', vs) :: mapAppend rest k v

/-- First loop of `sortScripts`: collect, per referenced dependency name, the
absolute pathnames of the scripts that declare it in their `after` list. -/
def aftersMap (scripts : List Script) : List (String × List String) :=
  scripts.foldl
    (fun m s =>
      match s.after with
      | none => m
      | some l => l.foldl (fun m a => mapAppend m a s.absolutePathname) m)
    []

/-- Probe the known directories in priority order for a dependency name and
return the first joined path that exists (the inner `for`/`break` loop). -/
def resolveAfterPath (fsExists : String → Bool) (directories : List String)
    (a : String) : Option String :=
  (directories.map (fun d => pathJoin d a)).find? fsExists

/-- Resolve every referenced dependency name to an absolute path, failing with
the unresolved name and its referencing scripts when no directory matches
(the `Promise.all` resolution phase, determinized to list order). -/
def resolveAfters (fsExists : String → Bool) (directories : List String) :
    List (String × List String) → Except SortError (List (String × String))
  | [] => .ok []
  | (a, refs) :: rest =>
    match resolveAfterPath fsExists directories a with
    | none => .error (.afterNotFound a refs)
    | some p =>
      match resolveAfters fsExists directories rest with
      | .error e => .error e
      | .ok c => .ok ((a, p) :: c)

/-- Lookup in the resolution cache (JS `cache.get`). -/
def cacheGet : List (String × String) → String → Option String
  | [], _ => none
  | (k, p) :: rest, a => if k == a then some p else cacheGet rest a

/-- JS `scriptPathToIndex.get(p)`: the map is filled with `forEach`, so a later
index overwrites an earlier one for a duplicate pathname (last one wins). -/
def scriptPathToIndex (scripts : List Script) (p : String) : Option Nat :=
  scripts.enum.foldl
    (fun acc is => if is.2.absolutePathname == p then some is.1 else acc) none

/-- Insert one resolved dependency edge `j -> i` into the adjacency list /
in-degree pair (`graph.get(j)?.push(i); inDegree[i]++`). -/
def edgeInsert (st : List (List Nat) × List Int) (j i : Nat) :
    List (List Nat) × List Int :=
  (st.1.set j (st.1.getD j [] ++ [i]), st.2.set i (st.2.getD i 0 + 1))

/-- Build the dependency graph and the in-degree vector from the resolved
cache (the `scripts.forEach` loop of `sortScripts`); `lookup` is the cache
read `cache.get(after)`. -/
def buildGraph (scripts : List Script) (lookup : String → Option String) :
    List (List Nat) × List Int :=
  scripts.enum.foldl
    (fun st is =>
      match is.2.after with
      | none => st
      | some l =>
        l.foldl
          (fun st a =>
            match lookup a with
            | none => st
            | some dp =>
              match scriptPathToIndex scripts dp with
              | none => st
              | some j => edgeInsert st j is.1)
          st)
    (List.replicate scripts.length [], List.replicate scripts.length 0)

/-- Seed queue of Kahn's algorithm: indices of zero in-degree, in index order
(the `inDegree.forEach` seeding loop). -/
def seeds (indeg : List Int) : List Nat :=
  (List.range indeg.length).filter (fun i => indeg.getD i 0 = 0)

/-- Process the successor list of a popped node: decrement each dependent's
in-degree and push it when the decremented value is exactly zero (the inner
`for (const dependent of graph.get(current))` loop). -/
def processSuccessors (succs : List Nat) (st : List Int × List Nat) :
    List Int × List Nat :=
  succs.foldl
    (fun st d =>
      let v := st.1.getD d 0 - 1
      (st.1.set d v, if v = 0 then st.2 ++ [d] else st.2))
    st

/-- Sum of the nonnegative parts of an integer list, the fuel measure of the
Kahn loop. -/
def toNatSum (l : List Int) : Nat := (l.map Int.toNat).sum

/-- The `while (queue.length > 0)` loop of Kahn's algorithm over node indices,
with explicit fuel (the loop terminates because queue length plus remaining
in-degree strictly decreases; the fuel chosen in `sortOrderOn` covers it). -/
def kahnFuel (adj : List (List Nat)) :
    Nat → List Nat → List Int → List Nat → List Nat
  | 0, _, _, acc => acc
  | _ + 1, [], _, acc => acc
  | fuel + 1, c :: q, indeg, acc =>
    let st := processSuccessors (adj.getD c []) (indeg, q)
    kahnFuel adj fuel st.2 st.1 (acc ++ [c])

/-- The Kahn phase of `sortScripts` over an already built graph: seed the
queue with the zero in-degree indices, run the loop (the fuel covers the
loop's strictly decreasing measure), and throw the circular-dependency error
naming the pathnames ordered so far when not every script was output. -/
def sortCore (scripts : List Script) (g : List (List Nat) × List Int) :
    Except SortError (List Nat) :=
  let q := seeds g.2
  let ord := kahnFuel g.1 (q.length + toNatSum g.2 + 1) q g.2 []
  if ord.length = scripts.length then .ok ord
  else .error (.circular (ord.map (fun i => ((scripts.getD i default).pathname))))

/-- The topological-sort core of `sortScripts`, returning the order as a list
of indices into `scripts`; `aftersList` is the collected dependency-reference
multimap (passed explicitly so that resolution-schedule permutations can be
stated). -/
def sortOrderOn (fsExists : String → Bool) (directories : List String)
    (scripts : List Script) (aftersList : List (String × List String)) :
    Except SortError (List Nat) :=
  match resolveAfters fsExists directories aftersList with
  | .error e => .error e
  | .ok cache => sortCore scripts (buildGraph scripts (cacheGet cache))

/-- Index order produced by `sortScripts`. -/
def sortOrder (fsExists : String → Bool) (directories : List String)
    (scripts : List Script) : Except SortError (List Nat) :=
  sortOrderOn fsExists directories scripts (aftersMap scripts)

/-- `sortScripts` itself: the scripts in resolved execution order, or the
thrown error. -/
def sortScripts (fsExists : String → Bool) (directories : List String)
    (scripts : List Script) : Except SortError (List Script) :=
  match sortOrder fsExists directories scripts with
  | .error e => .error e
  | .ok ord => .ok (ord.map (fun i => scripts.getD i default))

/-- The dependency adjacency list as resolved for a given input (empty graph
when name resolution fails, in which case `sortScripts` errors anyway). -/
def depGraph (fsExists : String → Bool) (directories : List String)
    (scripts : List Script) : List (List Nat) :=
  match resolveAfters fsExists directories (aftersMap scripts) with
  | .error _ => List.replicate scripts.length []
  | .ok cache => (buildGraph scripts (cacheGet cache)).1

/-- The resolved in-degree vector for a given input. -/
def depIndeg (fsExists : String → Bool) (directories : List String)
    (scripts : List Script) : List Int :=
  match resolveAfters fsExists directories (aftersMap scripts) with
  | .error _ => List.replicate scripts.length 0
  | .ok cache => (buildGraph scripts (cacheGet cache)).2

/-- Resolved dependency edge relation: `depEdge g j i` holds when script `j`
is a resolved dependency of script `i` (so `i` must run after `j`). -/
def depEdge (adj : List (List Nat)) (j i : Nat) : Prop :=
  i ∈ adj.getD j []

instance (adj : List (List Nat)) (j i : Nat) : Decidable (depEdge adj j i) := by
  unfold depEdge; infer_instance

/-- Number of dependency edges into node `i` whose source lies in the list
`S` (with multiplicity in both the adjacency lists and `S`). -/
def countIn (adj : List (List Nat)) (i : Nat) (S : List Nat) : Nat :=
  (S.map (fun c => (adj.getD c []).count i)).sum

/-- Total number of dependency edges into node `i`. -/
def countAll (adj : List (List Nat)) (i : Nat) : Nat :=
  countIn adj i (List.range adj.length)

/-! ## Run orchestrator (the execution loop at the end of `main`) -/

/-- The tail-recursive execution loop over the selected scripts: run each in
order and stop at the first nonzero exit code (`process.exit(code)`), carrying
the list of scripts started so far. -/
def runScriptsGo (exitCode : Script → Nat) (started : List Script) :
    List Script → List Script × Option Nat
  | [] => (started, none)
  | s :: rest =>
    let c := exitCode s
    if c = 0 then runScriptsGo exitCode (started ++ [s]) rest
    else (started ++ [s], some c)

/-- Execute the resolved script sequence: returns the scripts actually started
(in order) and `some code` when the run was aborted by `process.exit(code)`. -/
def runScripts (exitCode : Script → Nat) (scripts : List Script) :
    List Script × Option Nat :=
  runScriptsGo exitCode [] scripts

/-- Pipeline from discovery to execution: `sortScripts` feeds the orchestrator;
a resolution error propagates (is thrown) before any script is spawned. -/
def runPipeline (fsExists : String → Bool) (directories : List String)
    (scripts : List Script) (exitCode : Script → Nat) :
    Except SortError (List Script × Option Nat) :=
  match sortScripts fsExists directories scripts with
  | .error e => .error e
  | .ok sorted => .ok (runScripts exitCode sorted)

/-- The scripts actually started by the pipeline (none when resolution threw). -/
def startedScripts (fsExists : String → Bool) (directories : List String)
    (scripts : List Script) (exitCode : Script → Nat) : List Script :=
  match runPipeline fsExists directories scripts exitCode with
  | .error _ => []
  | .ok r => r.1

/-! ## Parameter resolver (the prompting loops of `main` in src/main.ts)

Interactive prompts and the git subprocess are external collaborators; an
`Oracle` supplies their answers, and the resolver records which prompts it
invoked as a list of events. -/

/-- Answers of the external collaborators: the directory-path input prompt,
the boolean confirm prompt, the worktree select prompt (`none` is the
synthetic "use base directory" choice) and the git worktree probe. -/
structure Oracle where
  inputValue : String → String
  confirmValue : String → Bool
  selectValue : String → Option String
  worktreesOf : String → List Worktree

/-- An invocation of an interactive prompt, keyed by the parameter name. -/
inductive PromptEvent
  | inputArg (name : String)
  | confirmOpt (name : String)
  | selectWorktree (name : String)
deriving DecidableEq, Repr

/-- Mutable state of the resolver walk: the two stores plus the log of
prompt invocations. -/
structure ResolveState where
  args : Store
  opts : Store
  prompts : List PromptEvent
deriving DecidableEq, Repr

/-- JS truthiness of a store read (`if (args[arg.name])`). -/
def valTruthy : Option Value → Bool
  | some v => v.truthy
  | none => false

/-- One argument of one script (`if (args[arg.name]) continue;` then the
input prompt), shared by the current and the legacy resolver. -/
def resolveArg (o : Oracle) (st : ResolveState) (a : ScriptArg) : ResolveState :=
  if valTruthy (storeGet st.args a.name) then st
  else
    { st with
      args := storeSet st.args a.name (.str (o.inputValue a.name))
      prompts := st.prompts ++ [.inputArg a.name] }

/-- One option of one script in the current resolver (main.ts lines 98-146):
any defined stored value — `opts[opt.name] !== undefined` — is skipped,
including a stored boolean false; `boolean` options use the confirm prompt and
`worktree` options the select prompt guarded by the base-directory lookup and
the `worktrees.length > 0 || !opt.optional` condition. -/
def resolveOpt (o : Oracle) (st : ResolveState) (opt : ScriptOpt) : ResolveState :=
  match storeGet st.opts opt.name with
  | some _ => st
  | none =>
    match opt with
    | .boolean n _ _ _ =>
      { st with
        opts := storeSet st.opts n (.bool (o.confirmValue n))
        prompts := st.prompts ++ [.confirmOpt n] }
    | .worktree n _ _ baseDirArg optional =>
      if baseDirArg == "" then st
      else
        match storeGet st.args baseDirArg with
        | some (.str b) =>
          if b == "" then st
          else
            let wts := o.worktreesOf b
            if wts.length > 0 || !(optional == some true) then
              { st with
                opts := storeSet st.opts n
                  (match o.selectValue n with
                   | some s => .str s
                   | none => .null)
                prompts := st.prompts ++ [.selectWorktree n] }
            else st
        | _ => st
    | .strOpt _ _ _ _ _ _ => st

/-- One option of one script in the legacy resolver (main.ts lines 377-391):
the guard is truthiness — `if (opts[opt.name]) continue;` — and only
`boolean` options have a prompt branch. -/
def resolveOptLegacy (o : Oracle) (st : ResolveState) (opt : ScriptOpt) :
    ResolveState :=
  if valTruthy (storeGet st.opts opt.name) then st
  else
    match opt with
    | .boolean n _ _ _ =>
      { st with
        opts := storeSet st.opts n (.bool (o.confirmValue n))
        prompts := st.prompts ++ [.confirmOpt n] }
    | _ => st

/-- Per-script walk of the current resolver: arguments first, then options. -/
def resolveScript (o : Oracle) (st : ResolveState) (s : Script) : ResolveState :=
  (s.opts.getD []).foldl (resolveOpt o) ((s.args.getD []).foldl (resolveArg o) st)

/-- Per-script walk of the legacy resolver. -/
def resolveScriptLegacy (o : Oracle) (st : ResolveState) (s : Script) :
    ResolveState :=
  (s.opts.getD []).foldl (resolveOptLegacy o)
    ((s.args.getD []).foldl (resolveArg o) st)

/-- The full resolver walk over the selected scripts (current variant). -/
def resolveParams (o : Oracle) (selected : List Script) (st : ResolveState) :
    ResolveState :=
  selected.foldl (resolveScript o) st

/-- The full resolver walk over the selected scripts (legacy variant). -/
def resolveParamsLegacy (o : Oracle) (selected : List Script)
    (st : ResolveState) : ResolveState :=
  selected.foldl (resolveScriptLegacy o) st

/-- Does a prompt event target the option named `k`? -/
def optEventFor (k : String) : PromptEvent → Bool
  | .confirmOpt n => n == k
  | .selectWorktree n => n == k
  | .inputArg _ => false

/-- Does a prompt event target the argument named `k`? -/
def argEventFor (k : String) : PromptEvent → Bool
  | .inputArg n => n == k
  | .confirmOpt _ => false
  | .selectWorktree _ => false

/-! ## Child environment construction (the env overlay loops of `main`) -/

/-- Set one environment variable. -/
def updateEnv (env : String → Option String) (k v : String) :
    String → Option String :=
  fun x => if x == k then some v else env x

/-- The argument overlay loop: a stored string or boolean value is written
(booleans via `toString`), anything else leaves the variable untouched. -/
def envSetArgs (argsStore : Store) (argList : List ScriptArg)
    (env : String → Option String) : String → Option String :=
  argList.foldl
    (fun env a =>
      match storeGet argsStore a.name with
      | some (.str s) => updateEnv env a.name s
      | some (.bool b) => updateEnv env a.name (toString b)
      | _ => env)
    env

/-- The option overlay loop: a `null` or undefined stored value is skipped
(`if (value === null || value === undefined) continue;`), strings and
booleans are written. -/
def envSetOpts (optsStore : Store) (optList : List ScriptOpt)
    (env : String → Option String) : String → Option String :=
  optList.foldl
    (fun env opt =>
      match storeGet optsStore opt.name with
      | some (.str s) => updateEnv env opt.name s
      | some (.bool b) => updateEnv env opt.name (toString b)
      | _ => env)
    env

/-- The child process environment for one script: the parent environment
overlaid with the script's resolved arguments, then its resolved options. -/
def buildEnv (baseEnv : String → Option String) (argsStore optsStore : Store)
    (s : Script) : String → Option String :=
  envSetOpts optsStore (s.opts.getD []) (envSetArgs argsStore (s.args.getD []) baseEnv)

/-! ## Store persistence (end of the resolver phase, plus `createConfig`) -/

/-- A `writeFileSync` performed by `createConfig(...).set`, tagged by which
store was flushed. -/
inductive WriteEvent
  | writeGlobalArgs (st : Store)
  | writeAppOpts (st : Store)
deriving DecidableEq, Repr

/-- The two guarded persistence calls after the resolver walk: each store is
flushed only when `Object.keys(store).length > 0`. -/
def persistStores (args opts : Store) : List WriteEvent :=
  (if args.length > 0 then [WriteEvent.writeGlobalArgs args] else []) ++
    (if opts.length > 0 then [WriteEvent.writeAppOpts opts] else [])

/-- Resolver walk followed by persistence: the final state and the disk
writes performed. -/
def resolveAndPersist (o : Oracle) (selected : List Script)
    (args0 opts0 : Store) : ResolveState × List WriteEvent :=
  let st := resolveParams o selected { args := args0, opts := opts0, prompts := [] }
  (st, persistStores st.args st.opts)

/-! ## Concrete fixtures used by witnesses and counterexamples -/

/-- A minimal script record living in the directory `/d`. -/
def mkScript (path : String) (after : Option (List String) := none) : Script :=
  { absolutePathname := "/d/" ++ path, pathname := path, after := after }

/-- Existence predicate of the fixture file system: four scripts in `/d`. -/
def fsEx : String → Bool :=
  fun s => s ∈ ["/d/a.sh", "/d/b.sh", "/d/c.sh", "/d/d.sh"]

/-- Discovery list for the queue-interleaving counterexample: `b.sh` depends
on `c.sh`; `a.sh`, `c.sh` and `d.sh` have no dependencies. -/
def scriptsEx : List Script :=
  [mkScript "a.sh", mkScript "b.sh" (some ["c.sh"]), mkScript "c.sh", mkScript "d.sh"]

/-- Two scripts forming a dependency cycle. -/
def scriptsCyc : List Script :=
  [mkScript "a.sh" (some ["b.sh"]), mkScript "b.sh" (some ["a.sh"])]

/-- Scenario A fixture: `a.sh` declared after `b.sh`, discovered first. -/
def scriptsAB : List Script :=
  [mkScript "a.sh" (some ["b.sh"]), mkScript "b.sh"]

/-- A script referencing a dependency name that no directory contains. -/
def scriptsMissing : List Script := [mkScript "a.sh" (some ["zz.sh"])]

/-- Fixture oracle: deterministic prompt answers, no worktrees anywhere. -/
def oracleEx : Oracle :=
  { inputValue := fun _ => "/home/user"
    confirmValue := fun _ => true
    selectValue := fun _ => none
    worktreesOf := fun _ => [] }

/-- A script declaring one boolean option named `MODE`. -/
def scriptModeEx : Script :=
  { absolutePathname := "/d/x.sh", pathname := "x.sh"
    opts := some [ScriptOpt.boolean "MODE" "mode" (some false) none] }

/-- A script declaring one directory argument named `DIR`. -/
def scriptDirEx : Script :=
  { absolutePathname := "/d/y.sh", pathname := "y.sh"
    args := some [ScriptArg.mk "DIR" "dir"] }

/-- Exit codes of the orchestrator fixture: `a.sh` fails with code 2. -/
def exitEx : Script → Nat := fun s => if s.pathname == "a.sh" then 2 else 0

/-- Resolver state fixture: the argument `DIR` is resolved, no options yet. -/
def stDirEx : ResolveState :=
  { args := [("DIR", Value.str "/x")], opts := [], prompts := [] }

/-- An optional worktree option whose base directory argument is `DIR`. -/
def optWtEx : ScriptOpt := ScriptOpt.worktree "WT" "pick a worktree" none "DIR" (some true)

/-- Resolver state fixture: the option `MODE` is stored as boolean false. -/
def stModeEx : ResolveState :=
  { args := [], opts := [("MODE", Value.bool false)], prompts := [] }

/-! ## Lemmas: worktree parser -/

theorem charsLead_append (pat rest : List Char) : charsLead pat (pat ++ rest) = true := by
  induction pat with
  | nil => rfl
  | cons a as ih => simp [charsLead, ih]

theorem strStartsWith_self_append (pat p : String) :
    strStartsWith (pat ++ p) pat = true := by
  unfold strStartsWith
  rw [String.data_append]
  exact charsLead_append _ _

theorem strDrop_self_append (pat p : String) :
    strDrop (pat ++ p) pat.data.length = p := by
  unfold strDrop
  rw [String.data_append, List.drop_left]

theorem head_not_worktree (h : String) :
    strStartsWith ("HEAD " ++ h) "worktree " = false := by
  unfold strStartsWith
  rw [String.data_append]
  rfl

theorem worktreeStep_worktreeLine (acc : List Worktree) (cur : PartialWorktree)
    (p : String) :
    worktreeStep (acc, cur) ("worktree " ++ p) =
      (acc, { cur with path := some p }) := by
  have hd : strDrop ("worktree " ++ p) 9 = p := strDrop_self_append "worktree " p
  simp [worktreeStep, strStartsWith_self_append, hd]

theorem worktreeStep_headLine (acc : List Worktree) (cur : PartialWorktree)
    (h : String) :
    worktreeStep (acc, cur) ("HEAD " ++ h) =
      (acc, { cur with HEAD := some h }) := by
  have hd : strDrop ("HEAD " ++ h) 5 = h := strDrop_self_append "HEAD " h
  simp [worktreeStep, head_not_worktree, strStartsWith_self_append, hd]

/-! ## Lemmas: run orchestrator -/

theorem runScriptsGo_abort (exitCode : Script → Nat) (a : Script)
    (post : List Script) (hc : exitCode a ≠ 0) :
    ∀ pre started, (∀ s ∈ pre, exitCode s = 0) →
      runScriptsGo exitCode started (pre ++ a :: post) =
        (started ++ pre ++ [a], some (exitCode a)) := by
  intro pre
  induction pre with
  | nil =>
    intro started _
    simp [runScriptsGo, if_neg hc]
  | cons s rest ih =>
    intro started hpre
    have hs : exitCode s = 0 := hpre s (by simp)
    have := ih (started ++ [s]) (fun x hx => hpre x (by simp [hx]))
    simp [runScriptsGo, hs, this]

/-- A non-blank line leaves the accumulated record list untouched and
updates the partial record independently of it. -/
theorem worktreeStep_nonblank (acc : List Worktree) (cur : PartialWorktree)
    (line : String) (hl : ¬ (line == "") = true) :
    worktreeStep (acc, cur) line = (acc, (worktreeStep ([], cur) line).2) := by
  unfold worktreeStep
  by_cases h1 : strStartsWith line "worktree " = true
  · simp [h1]
  · by_cases h2 : strStartsWith line "HEAD " = true
    · simp [h1, h2]
    · by_cases h3 : strStartsWith line "branch " = true
      · simp [h1, h2, h3]
      · simp [h1, h2, h3, hl]

/-- A blank line flushes the current record and resets the partial state. -/
theorem worktreeStep_blank (acc : List Worktree) (cur : PartialWorktree) :
    worktreeStep (acc, cur) "" = (flushWorktree cur acc, {}) := rfl

/-- Over a blank-free segment the loop keeps the accumulated records and
assembles the partial record independently of them. -/
theorem foldl_worktreeStep_noblank :
    ∀ (rec : List String), "" ∉ rec →
      ∀ (acc : List Worktree) (cur : PartialWorktree),
        rec.foldl worktreeStep (acc, cur) =
          (acc, (rec.foldl worktreeStep ([], cur)).2) := by
  intro rec
  induction rec with
  | nil =>
    intro _ acc cur
    rfl
  | cons l rest ih =>
    intro hnb acc cur
    have hl : ¬ (l == "") = true := by
      simp only [beq_iff_eq]
      intro he
      exact hnb (by simp [he])
    have hrest : "" ∉ rest := fun hm => hnb (by simp [hm])
    simp only [List.foldl_cons]
    rw [worktreeStep_nonblank acc cur l hl,
      ih hrest acc ((worktreeStep ([], cur) l).2),
      worktreeStep_nonblank [] cur l hl,
      ih hrest [] ((worktreeStep ([], cur) l).2)]

/-- A flush of a partial record with truthy path and HEAD fields appends
exactly that record. -/
theorem flushWorktree_truthy (cur : PartialWorktree) (acc : List Worktree)
    (hp : fieldTruthy cur.path = true) (hh : fieldTruthy cur.HEAD = true) :
    flushWorktree cur acc = acc ++ [recordOf cur] := by
  unfold flushWorktree recordOf
  rw [if_pos (by rw [hp, hh]; rfl)]

/-- C10: after the implementation trims the output, the final porcelain
record is never followed by a blank line, yet `listWorktrees` still flushes
it after the loop: for every line list that ends with a blank-free final
record segment `rec` — of any shape, e.g. `worktree`, `HEAD` and `branch`
lines in the usual git order — whose assembled fields include a truthy
`worktree` path and a truthy `HEAD`, the parse result ends with exactly that
record; so any such output, e.g. from a single-worktree repository, yields a
nonempty list. -/
theorem listWorktrees_includes_final_record (pre rec : List String)
    (hpre : pre = [] ∨ ∃ pre2, pre = pre2 ++ [""])
    (hrec : "" ∉ rec)
    (hp : fieldTruthy (curOfRecord rec).path = true)
    (hh : fieldTruthy (curOfRecord rec).HEAD = true) :
    (parseWorktreeLines (pre ++ rec)).getLast? =
      some (recordOf (curOfRecord rec)) ∧
    ∀ output : String, strLines (strTrim output) = pre ++ rec →
      listWorktreesOut output ≠ [] := by
  have hkey : ∃ acc0, parseWorktreeLines (pre ++ rec) =
      acc0 ++ [recordOf (curOfRecord rec)] := by
    have hsplit : ∃ acc0, List.foldl worktreeStep ([], {}) pre =
        (acc0, ({} : PartialWorktree)) := by
      rcases hpre with h | ⟨pre2, h⟩
      · subst h
        exact ⟨[], rfl⟩
      · subst h
        rw [List.foldl_append]
        obtain ⟨acc2, cur2, hst⟩ : ∃ acc2 cur2,
            List.foldl worktreeStep ([], {}) pre2 = (acc2, cur2) := ⟨_, _, rfl⟩
        rw [hst]
        exact ⟨flushWorktree cur2 acc2, by
          simp only [List.foldl_cons, List.foldl_nil, worktreeStep_blank]⟩
    obtain ⟨acc0, hst⟩ := hsplit
    unfold parseWorktreeLines
    rw [List.foldl_append, hst, foldl_worktreeStep_noblank rec hrec acc0 {}]
    exact ⟨acc0, flushWorktree_truthy _ _ hp hh⟩
  obtain ⟨acc0, heq⟩ := hkey
  constructor
  · rw [heq, List.getLast?_concat]
  · intro output hout
    unfold listWorktreesOut
    rw [hout, heq]
    simp

/-- Witness for C10 at a concrete single-worktree porcelain dump in the
usual git shape, the `branch` line following `HEAD` with no trailing blank. -/
theorem listWorktrees_includes_final_record_witness :
    ("" : String) ∉ ["worktree /repo", "HEAD abc123", "branch refs/heads/main"] ∧
    fieldTruthy (curOfRecord
      ["worktree /repo", "HEAD abc123", "branch refs/heads/main"]).path = true ∧
    fieldTruthy (curOfRecord
      ["worktree /repo", "HEAD abc123", "branch refs/heads/main"]).HEAD = true ∧
    (parseWorktreeLines
        ([] ++ ["worktree /repo", "HEAD abc123", "branch refs/heads/main"])).getLast? =
      some { path := "/repo", branch := "main", HEAD := "abc123" } ∧
    listWorktreesOut "worktree /repo\nHEAD abc123\nbranch refs/heads/main" ≠ [] := by
  have hrec : ("" : String) ∉
      ["worktree /repo", "HEAD abc123", "branch refs/heads/main"] := by decide
  have hp : fieldTruthy (curOfRecord
      ["worktree /repo", "HEAD abc123", "branch refs/heads/main"]).path = true := by
    decide
  have hh : fieldTruthy (curOfRecord
      ["worktree /repo", "HEAD abc123", "branch refs/heads/main"]).HEAD = true := by
    decide
  have main := listWorktrees_includes_final_record []
    ["worktree /repo", "HEAD abc123", "branch refs/heads/main"]
    (Or.inl rfl) hrec hp hh
  refine ⟨hrec, hp, hh, ?_, ?_⟩
  · rw [main.1]
    rfl
  · exact main.2 "worktree /repo\nHEAD abc123\nbranch refs/heads/main" (by decide)

/-- C5: if a script in the resolved sequence exits with a nonzero code, the
orchestrator loop stops there with exactly that exit code: the scripts started
are precisely the successful ones before it plus the failing script itself —
each exactly once (no retry) — and nothing after it in the sequence runs. -/
theorem run_aborts_on_first_nonzero (exitCode : Script → Nat)
    (pre post : List Script) (a : Script)
    (hpre : ∀ s ∈ pre, exitCode s = 0) (hc : exitCode a ≠ 0) :
    runScripts exitCode (pre ++ a :: post) = (pre ++ [a], some (exitCode a)) := by
  unfold runScripts
  simpa using runScriptsGo_abort exitCode a post hc pre [] hpre

/-- Witness for C5: `z.sh` succeeds, `a.sh` exits with code 2, `b.sh` is
queued after it and never starts; the run exits with code 2. -/
theorem run_aborts_on_first_nonzero_witness :
    (∀ s ∈ [mkScript "z.sh"], exitEx s = 0) ∧ exitEx (mkScript "a.sh") ≠ 0 ∧
    runScripts exitEx ([mkScript "z.sh"] ++ mkScript "a.sh" :: [mkScript "b.sh"]) =
      ([mkScript "z.sh", mkScript "a.sh"], some 2) := by
  have h1 : ∀ s ∈ [mkScript "z.sh"], exitEx s = 0 := by decide
  have h2 : exitEx (mkScript "a.sh") ≠ 0 := by decide
  refine ⟨h1, h2, ?_⟩
  have := run_aborts_on_first_nonzero exitEx [mkScript "z.sh"] [mkScript "b.sh"]
    (mkScript "a.sh") h1 h2
  simpa using this

/-! ## Lemmas: stores and the resolver walk -/

theorem storeGet_storeSet_self (st : Store) (k : String) (v : Value) :
    storeGet (storeSet st k v) k = some v := by
  induction st with
  | nil => simp [storeSet, storeGet]
  | cons p rest ih =>
    obtain ⟨k', v'⟩ := p
    by_cases h : k' = k
    · simp [storeSet, storeGet, h]
    · simpa [storeSet, storeGet, h] using ih

theorem storeGet_storeSet_ne (st : Store) (k k' : String) (v : Value)
    (h : ¬ k' = k) : storeGet (storeSet st k v) k' = storeGet st k' := by
  have hkk : ¬ k = k' := fun hx => h hx.symm
  induction st with
  | nil =>
    simp only [storeSet, storeGet, beq_iff_eq]
    rw [if_neg hkk]
  | cons p rest ih =>
    obtain ⟨k0, v0⟩ := p
    by_cases h0 : k0 = k
    · subst h0
      simp only [storeSet, beq_iff_eq, if_pos rfl, storeGet]
      rw [if_neg hkk, if_neg hkk]
    · simp only [storeSet, beq_iff_eq, if_neg h0, storeGet]
      by_cases h1 : k0 = k'
      · rw [if_pos h1, if_pos h1]
      · rw [if_neg h1, if_neg h1]
        exact ih

theorem foldl_preserve {α β : Type} (f : α → β → α) (Q : α → Prop)
    (h : ∀ st x, Q st → Q (f st x)) :
    ∀ (l : List β) (st : α), Q st → Q (l.foldl f st) := by
  intro l
  induction l with
  | nil => intro st hq; exact hq
  | cons x rest ih => intro st hq; exact ih (f st x) (h st x hq)

/-- A `resolveArg` step never touches the option store. -/
theorem resolveArg_opts (o : Oracle) (st : ResolveState) (a : ScriptArg) :
    (resolveArg o st a).opts = st.opts := by
  unfold resolveArg
  by_cases h : valTruthy (storeGet st.args a.name) = true <;> simp [h]

/-- A `resolveArg` step appends at most one `inputArg` event. -/
theorem resolveArg_prompts (o : Oracle) (st : ResolveState) (a : ScriptArg) :
    (resolveArg o st a).prompts = st.prompts ∨
    (resolveArg o st a).prompts = st.prompts ++ [PromptEvent.inputArg a.name] := by
  unfold resolveArg
  by_cases h : valTruthy (storeGet st.args a.name) = true <;> simp [h]

/-- A `resolveOpt` step never touches the argument store. -/
theorem resolveOpt_args (o : Oracle) (st : ResolveState) (opt : ScriptOpt) :
    (resolveOpt o st opt).args = st.args := by
  unfold resolveOpt
  rcases hget : storeGet st.opts opt.name with _ | v
  · cases opt with
    | boolean n d dflt optional => simp
    | worktree n d dflt bArg optional =>
      by_cases hb : bArg == ""
      · simp [hb]
      · simp only [hb, Bool.false_eq_true, if_false]
        rcases storeGet st.args bArg with _ | bv
        · simp
        · cases bv with
          | str b =>
            by_cases hbe : b == ""
            · simp [hbe]
            · by_cases hw : ((o.worktreesOf b).length > 0 || !(optional == some true)) = true
              · simp [hbe, hw]
              · simp [hbe, hw]
          | bool b => simp
          | null => simp
    | strOpt n d dflt optional pat phelp => simp
  · simp

/-- If the key `k` is already defined in the option store, a `resolveOpt`
step leaves its binding alone and appends no option event for `k`. -/
theorem resolveOpt_present (o : Oracle) (st : ResolveState) (opt : ScriptOpt)
    (k : String) (v : Value) (hk : storeGet st.opts k = some v) :
    storeGet (resolveOpt o st opt).opts k = some v ∧
    (resolveOpt o st opt).prompts.filter (optEventFor k) =
      st.prompts.filter (optEventFor k) := by
  rcases hget : storeGet st.opts opt.name with _ | w
  · have hname : ¬ opt.name = k := by
      intro he
      rw [he, hk] at hget
      cases hget
    unfold resolveOpt
    rw [hget]
    cases opt with
    | boolean n d dflt optional =>
      have hn : ¬ n = k := hname
      refine ⟨?_, ?_⟩
      · rw [storeGet_storeSet_ne st.opts n k _ (fun hx => hn hx.symm)]
        exact hk
      · simp [List.filter_append, optEventFor, hn]
    | worktree n d dflt bArg optional =>
      have hn : ¬ n = k := hname
      by_cases hb : (bArg == "") = true
      · simp [hb, hk]
      · simp only [hb, Bool.false_eq_true, if_false]
        rcases storeGet st.args bArg with _ | bv
        · exact ⟨hk, rfl⟩
        · cases bv with
          | str b =>
            by_cases hbe : (b == "") = true
            · simp [hbe, hk]
            · by_cases hw : ((o.worktreesOf b).length > 0 || !(optional == some true)) = true
              · refine ⟨?_, ?_⟩
                · simp only [hbe, Bool.false_eq_true, if_false, hw, if_true]
                  rw [storeGet_storeSet_ne st.opts n k _ (fun hx => hn hx.symm)]
                  exact hk
                · simp [hbe, hw, List.filter_append, optEventFor, hn]
              · simp [hbe, hw, hk]
          | bool b => exact ⟨hk, rfl⟩
          | null => exact ⟨hk, rfl⟩
    | strOpt n d dflt optional pat phelp => exact ⟨hk, rfl⟩
  · unfold resolveOpt
    rw [hget]
    exact ⟨hk, rfl⟩

/-- A `resolveOpt` step appends at most one option event. -/
theorem resolveOpt_prompts (o : Oracle) (st : ResolveState) (opt : ScriptOpt) :
    (resolveOpt o st opt).prompts = st.prompts ∨
    (∃ n, (resolveOpt o st opt).prompts = st.prompts ++ [PromptEvent.confirmOpt n]) ∨
    (∃ n, (resolveOpt o st opt).prompts = st.prompts ++ [PromptEvent.selectWorktree n]) := by
  unfold resolveOpt
  rcases storeGet st.opts opt.name with _ | w
  · cases opt with
    | boolean n d dflt optional => exact Or.inr (Or.inl ⟨n, rfl⟩)
    | worktree n d dflt bArg optional =>
      by_cases hb : (bArg == "") = true
      · simp [hb]
      · simp only [hb, Bool.false_eq_true, if_false]
        rcases storeGet st.args bArg with _ | bv
        · simp
        · cases bv with
          | str b =>
            by_cases hbe : (b == "") = true
            · simp [hbe]
            · by_cases hw : ((o.worktreesOf b).length > 0 || !(optional == some true)) = true
              · exact Or.inr (Or.inr ⟨n, by simp [hbe, hw]⟩)
              · simp [hbe, hw]
          | bool b => simp
          | null => simp
    | strOpt n d dflt optional pat phelp => simp
  · simp

theorem filter_append_none {p : PromptEvent → Bool} (l t : List PromptEvent)
    (h : ∀ e ∈ t, p e = false) : (l ++ t).filter p = l.filter p := by
  have ht : t.filter p = [] := List.filter_eq_nil_iff.mpr (by simpa using h)
  rw [List.filter_append, ht, List.append_nil]

/-- If the key `k` is stored truthy in the argument store, a `resolveArg`
step leaves its binding alone and appends no argument event for `k`. -/
theorem resolveArg_present (o : Oracle) (st : ResolveState) (a : ScriptArg)
    (k : String) (v : Value) (hk : storeGet st.args k = some v)
    (htr : v.truthy = true) :
    storeGet (resolveArg o st a).args k = some v ∧
    (resolveArg o st a).prompts.filter (argEventFor k) =
      st.prompts.filter (argEventFor k) := by
  by_cases hname : a.name = k
  · have hget : valTruthy (storeGet st.args a.name) = true := by
      rw [hname, hk]
      exact htr
    unfold resolveArg
    rw [if_pos hget]
    exact ⟨hk, rfl⟩
  · unfold resolveArg
    by_cases hget : valTruthy (storeGet st.args a.name) = true
    · rw [if_pos hget]
      exact ⟨hk, rfl⟩
    · rw [if_neg hget]
      refine ⟨?_, ?_⟩
      · simpa using (storeGet_storeSet_ne st.args a.name k _ (fun hx => hname hx.symm)) ▸ hk
      · exact filter_append_none _ _ (by simp [argEventFor, hname])

/-- Lifting of `resolveOpt_present` and stability under argument steps to the
whole resolver walk: a defined option key is never prompted nor overwritten. -/
theorem resolveParams_opts_present (o : Oracle) (selected : List Script)
    (st : ResolveState) (k : String) (v : Value)
    (hk : storeGet st.opts k = some v) :
    storeGet (resolveParams o selected st).opts k = some v ∧
    (resolveParams o selected st).prompts.filter (optEventFor k) =
      st.prompts.filter (optEventFor k) := by
  have harg : ∀ (st' : ResolveState) (a : ScriptArg),
      (storeGet st'.opts k = some v ∧
        st'.prompts.filter (optEventFor k) = st.prompts.filter (optEventFor k)) →
      storeGet (resolveArg o st' a).opts k = some v ∧
        (resolveArg o st' a).prompts.filter (optEventFor k) =
          st.prompts.filter (optEventFor k) := by
    intro st' a h
    rw [resolveArg_opts]
    refine ⟨h.1, ?_⟩
    rcases resolveArg_prompts o st' a with hp | hp
    · rw [hp]; exact h.2
    · rw [hp, filter_append_none _ _ (by simp [optEventFor])]
      exact h.2
  have hopt : ∀ (st' : ResolveState) (q : ScriptOpt),
      (storeGet st'.opts k = some v ∧
        st'.prompts.filter (optEventFor k) = st.prompts.filter (optEventFor k)) →
      storeGet (resolveOpt o st' q).opts k = some v ∧
        (resolveOpt o st' q).prompts.filter (optEventFor k) =
          st.prompts.filter (optEventFor k) := by
    intro st' q h
    obtain ⟨h1, h2⟩ := resolveOpt_present o st' q k v h.1
    exact ⟨h1, h2.trans h.2⟩
  have hscript : ∀ (st' : ResolveState) (s : Script),
      (storeGet st'.opts k = some v ∧
        st'.prompts.filter (optEventFor k) = st.prompts.filter (optEventFor k)) →
      storeGet (resolveScript o st' s).opts k = some v ∧
        (resolveScript o st' s).prompts.filter (optEventFor k) =
          st.prompts.filter (optEventFor k) := by
    intro st' s h
    exact foldl_preserve _ _ hopt (s.opts.getD [])
      ((s.args.getD []).foldl (resolveArg o) st')
      (foldl_preserve _ _ harg (s.args.getD []) st' h)
  exact foldl_preserve _ _ hscript selected st ⟨hk, rfl⟩

/-- Lifting of `resolveArg_present` to the whole resolver walk: a truthy
argument key is never prompted nor overwritten. -/
theorem resolveParams_args_present (o : Oracle) (selected : List Script)
    (st : ResolveState) (k : String) (v : Value)
    (hk : storeGet st.args k = some v) (htr : v.truthy = true) :
    storeGet (resolveParams o selected st).args k = some v ∧
    (resolveParams o selected st).prompts.filter (argEventFor k) =
      st.prompts.filter (argEventFor k) := by
  have harg : ∀ (st' : ResolveState) (a : ScriptArg),
      (storeGet st'.args k = some v ∧
        st'.prompts.filter (argEventFor k) = st.prompts.filter (argEventFor k)) →
      storeGet (resolveArg o st' a).args k = some v ∧
        (resolveArg o st' a).prompts.filter (argEventFor k) =
          st.prompts.filter (argEventFor k) := by
    intro st' a h
    obtain ⟨h1, h2⟩ := resolveArg_present o st' a k v h.1 htr
    exact ⟨h1, h2.trans h.2⟩
  have hopt : ∀ (st' : ResolveState) (q : ScriptOpt),
      (storeGet st'.args k = some v ∧
        st'.prompts.filter (argEventFor k) = st.prompts.filter (argEventFor k)) →
      storeGet (resolveOpt o st' q).args k = some v ∧
        (resolveOpt o st' q).prompts.filter (argEventFor k) =
          st.prompts.filter (argEventFor k) := by
    intro st' q h
    rw [resolveOpt_args]
    refine ⟨h.1, ?_⟩
    rcases resolveOpt_prompts o st' q with hp | hp | hp
    · rw [hp]; exact h.2
    · obtain ⟨n, hp⟩ := hp
      rw [hp, filter_append_none _ _ (by simp [argEventFor])]
      exact h.2
    · obtain ⟨n, hp⟩ := hp
      rw [hp, filter_append_none _ _ (by simp [argEventFor])]
      exact h.2
  have hscript : ∀ (st' : ResolveState) (s : Script),
      (storeGet st'.args k = some v ∧
        st'.prompts.filter (argEventFor k) = st.prompts.filter (argEventFor k)) →
      storeGet (resolveScript o st' s).args k = some v ∧
        (resolveScript o st' s).prompts.filter (argEventFor k) =
          st.prompts.filter (argEventFor k) := by
    intro st' s h
    exact foldl_preserve _ _ hopt (s.opts.getD [])
      ((s.args.getD []).foldl (resolveArg o) st')
      (foldl_preserve _ _ harg (s.args.getD []) st' h)
  exact foldl_preserve _ _ hscript selected st ⟨hk, rfl⟩

/-- C4 (amended): in the current resolver, an option key already defined in
the per-project store — including one stored as boolean `false` — is never
prompted again and its stored value is left unchanged; an argument key is
skipped and left unchanged when its stored value is truthy.  (As the
counterexample shows, the legacy resolver treats a stored `false` option as
absent, and a stored falsy argument value is re-prompted in both resolvers,
so presence alone is not sufficient as the original claim stated.) -/
theorem resolver_never_reprompts_present (o : Oracle) (selected : List Script)
    (st : ResolveState) (k : String) (v : Value) :
    (storeGet st.opts k = some v →
      storeGet (resolveParams o selected st).opts k = some v ∧
      (resolveParams o selected st).prompts.filter (optEventFor k) =
        st.prompts.filter (optEventFor k)) ∧
    (storeGet st.args k = some v → v.truthy = true →
      storeGet (resolveParams o selected st).args k = some v ∧
      (resolveParams o selected st).prompts.filter (argEventFor k) =
        st.prompts.filter (argEventFor k)) :=
  ⟨fun hk => resolveParams_opts_present o selected st k v hk,
   fun hk htr => resolveParams_args_present o selected st k v hk htr⟩

/-- Witness for the amended C4: with `MODE` stored as `false`, the current
resolver leaves it at `false` and issues no option prompt for it. -/
theorem resolver_never_reprompts_present_witness :
    storeGet stModeEx.opts "MODE" = some (Value.bool false) ∧
    storeGet (resolveParams oracleEx [scriptModeEx] stModeEx).opts "MODE" =
      some (Value.bool false) ∧
    (resolveParams oracleEx [scriptModeEx] stModeEx).prompts.filter
      (optEventFor "MODE") = [] := by
  have hk : storeGet stModeEx.opts "MODE" = some (Value.bool false) := by decide
  have h := (resolver_never_reprompts_present oracleEx [scriptModeEx] stModeEx
    "MODE" (Value.bool false)).1 hk
  exact ⟨hk, h.1, by simpa [stModeEx] using h.2⟩

/-- Counterexample for C4 as stated: the legacy resolver (main.ts lines
361-391) re-prompts for the option `MODE` although the store already maps it
to boolean `false` — the confirm prompt fires and the stored value is
overwritten with the prompt's answer. -/
theorem legacy_reprompts_stored_false :
    storeGet stModeEx.opts "MODE" = some (Value.bool false) ∧
    resolveParamsLegacy oracleEx [scriptModeEx] stModeEx =
      { args := [], opts := [("MODE", Value.bool true)]
        prompts := [PromptEvent.confirmOpt "MODE"] } := by
  constructor
  · decide
  · decide

/-- C8: a worktree option marked `optional: true` whose base directory yields
zero worktrees is skipped without prompting and its key stays unset; and the
environment overlay never writes a variable whose option key is undefined or
stored `null`, so the name stays absent from the child environment. -/
theorem optional_worktree_zero_skips (o : Oracle) (st : ResolveState)
    (n d bArg b : String) (dflt : Option String)
    (hn : storeGet st.opts n = none) (hb : bArg ≠ "")
    (hbase : storeGet st.args bArg = some (Value.str b)) (hbne : b ≠ "")
    (hzero : o.worktreesOf b = []) :
    resolveOpt o st (ScriptOpt.worktree n d dflt bArg (some true)) = st ∧
    ∀ (optList : List ScriptOpt) (env : String → Option String),
      (∀ q ∈ optList, q.name = n →
        storeGet st.opts q.name = none ∨ storeGet st.opts q.name = some Value.null) →
      envSetOpts st.opts optList env n = env n := by
  constructor
  · unfold resolveOpt
    have hname : storeGet st.opts (ScriptOpt.worktree n d dflt bArg (some true)).name = none := hn
    rw [hname]
    simp [hb, hbase, hbne, hzero]
  · intro optList
    induction optList with
    | nil => intro env _; rfl
    | cons q rest ih =>
      intro env hq
      have hstep :
          (match storeGet st.opts q.name with
            | some (Value.str s) => updateEnv env q.name s
            | some (Value.bool b) => updateEnv env q.name (toString b)
            | _ => env) n = env n := by
        by_cases hqn : q.name = n
        · rcases hq q (by simp) hqn with hx | hx <;> rw [hx]
        · rcases storeGet st.opts q.name with _ | w
          · rfl
          · cases w with
            | str s =>
              simp only [updateEnv, beq_iff_eq]
              rw [if_neg (fun hx : n = q.name => hqn hx.symm)]
            | bool bb =>
              simp only [updateEnv, beq_iff_eq]
              rw [if_neg (fun hx : n = q.name => hqn hx.symm)]
            | null => rfl
      have := ih (match storeGet st.opts q.name with
            | some (Value.str s) => updateEnv env q.name s
            | some (Value.bool b) => updateEnv env q.name (toString b)
            | _ => env) (fun q' hq' => hq q' (by simp [hq']))
      calc envSetOpts st.opts (q :: rest) env n
          = envSetOpts st.opts rest
              (match storeGet st.opts q.name with
                | some (Value.str s) => updateEnv env q.name s
                | some (Value.bool b) => updateEnv env q.name (toString b)
                | _ => env) n := rfl
        _ = env n := this.trans hstep

/-- Witness for C8 at the fixture: the optional worktree option `WT` with
base directory `DIR` and no worktrees is skipped, and `WT` is absent from the
environment built over an empty parent environment. -/
theorem optional_worktree_zero_skips_witness :
    storeGet stDirEx.opts "WT" = none ∧
    storeGet stDirEx.args "DIR" = some (Value.str "/x") ∧
    oracleEx.worktreesOf "/x" = [] ∧
    resolveOpt oracleEx stDirEx optWtEx = stDirEx ∧
    envSetOpts stDirEx.opts [optWtEx] (fun _ => none) "WT" = none := by
  have h := optional_worktree_zero_skips oracleEx stDirEx "WT" "pick a worktree"
    "DIR" "/x" none (by decide) (by decide) (by decide) (by decide) rfl
  refine ⟨by decide, by decide, rfl, h.1, ?_⟩
  exact h.2 [optWtEx] (fun _ => none) (by intro q hq hname; left; simp at hq; rw [hq]; decide)

/-- Progress composition: prompt logs only grow, and an unchanged log means
an unchanged state. -/
theorem progress_trans {st st1 st2 : ResolveState}
    (h1 : ∃ t, st1.prompts = st.prompts ++ t ∧ (t = [] → st1 = st))
    (h2 : ∃ t, st2.prompts = st1.prompts ++ t ∧ (t = [] → st2 = st1)) :
    ∃ t, st2.prompts = st.prompts ++ t ∧ (t = [] → st2 = st) := by
  obtain ⟨t1, he1, hn1⟩ := h1
  obtain ⟨t2, he2, hn2⟩ := h2
  refine ⟨t1 ++ t2, by rw [he2, he1, List.append_assoc], ?_⟩
  intro ht
  obtain ⟨ht1, ht2⟩ := List.append_eq_nil.mp ht
  rw [hn2 ht2, hn1 ht1]

theorem resolveArg_progress (o : Oracle) (st : ResolveState) (a : ScriptArg) :
    ∃ t, (resolveArg o st a).prompts = st.prompts ++ t ∧
      (t = [] → resolveArg o st a = st) := by
  unfold resolveArg
  by_cases h : valTruthy (storeGet st.args a.name) = true
  · exact ⟨[], by simp [h]⟩
  · refine ⟨[PromptEvent.inputArg a.name], by simp [h]⟩

theorem resolveOpt_progress (o : Oracle) (st : ResolveState) (opt : ScriptOpt) :
    ∃ t, (resolveOpt o st opt).prompts = st.prompts ++ t ∧
      (t = [] → resolveOpt o st opt = st) := by
  unfold resolveOpt
  rcases storeGet st.opts opt.name with _ | w
  · cases opt with
    | boolean n d dflt optional =>
      exact ⟨[PromptEvent.confirmOpt n], by simp⟩
    | worktree n d dflt bArg optional =>
      by_cases hb : (bArg == "") = true
      · exact ⟨[], by simp [hb]⟩
      · simp only [hb, Bool.false_eq_true, if_false]
        rcases storeGet st.args bArg with _ | bv
        · exact ⟨[], by simp⟩
        · cases bv with
          | str b =>
            by_cases hbe : (b == "") = true
            · exact ⟨[], by simp [hbe]⟩
            · by_cases hw : ((o.worktreesOf b).length > 0 || !(optional == some true)) = true
              · exact ⟨[PromptEvent.selectWorktree n], by simp [hbe, hw]⟩
              · exact ⟨[], by simp [hbe, hw]⟩
          | bool b => exact ⟨[], by simp⟩
          | null => exact ⟨[], by simp⟩
    | strOpt n d dflt optional pat phelp => exact ⟨[], by simp⟩
  · exact ⟨[], by simp⟩

theorem foldl_progress {β : Type}
    (f : ResolveState → β → ResolveState)
    (hstep : ∀ st x, ∃ t, (f st x).prompts = st.prompts ++ t ∧ (t = [] → f st x = st)) :
    ∀ (l : List β) (st : ResolveState),
      ∃ t, (l.foldl f st).prompts = st.prompts ++ t ∧ (t = [] → l.foldl f st = st) := by
  intro l
  induction l with
  | nil => intro st; exact ⟨[], by simp⟩
  | cons x rest ih =>
    intro st
    exact progress_trans (hstep st x) (ih (f st x))

theorem resolveParams_progress (o : Oracle) (selected : List Script)
    (st : ResolveState) :
    ∃ t, (resolveParams o selected st).prompts = st.prompts ++ t ∧
      (t = [] → resolveParams o selected st = st) := by
  apply foldl_progress
  intro st' s
  exact progress_trans
    (foldl_progress (resolveArg o) (resolveArg_progress o) (s.args.getD []) st')
    (foldl_progress (resolveOpt o) (resolveOpt_progress o) (s.opts.getD [])
      ((s.args.getD []).foldl (resolveArg o) st'))

/-- C9 (amended): each of the two stores is flushed to disk exactly when it is
non-empty after the resolver walk; a run that starts with both stores empty
and resolves no new keys performs no write.  (A run whose stores were loaded
non-empty from disk rewrites them even when nothing new was resolved, which is
what the counterexample exhibits against the original claim.) -/
theorem persist_iff_nonempty (o : Oracle) (selected : List Script)
    (args0 opts0 : Store) :
    ((∃ s, WriteEvent.writeGlobalArgs s ∈ (resolveAndPersist o selected args0 opts0).2) ↔
      (resolveAndPersist o selected args0 opts0).1.args ≠ []) ∧
    ((∃ s, WriteEvent.writeAppOpts s ∈ (resolveAndPersist o selected args0 opts0).2) ↔
      (resolveAndPersist o selected args0 opts0).1.opts ≠ []) ∧
    (args0 = [] → opts0 = [] →
      (resolveAndPersist o selected args0 opts0).1.prompts = [] →
      (resolveAndPersist o selected args0 opts0).2 = []) := by
  refine ⟨?_, ?_, ?_⟩
  · unfold resolveAndPersist persistStores
    rcases hA : (resolveParams o selected
        { args := args0, opts := opts0, prompts := [] }).args with _ | ⟨p, rest⟩
    · simp [hA]
    · simp [hA]
  · unfold resolveAndPersist persistStores
    rcases hO : (resolveParams o selected
        { args := args0, opts := opts0, prompts := [] }).opts with _ | ⟨q, rest2⟩
    · simp [hO]
    · simp [hO]
  · intro ha ho hp
    subst ha
    subst ho
    obtain ⟨t, ht, hnil⟩ := resolveParams_progress o selected
      { args := [], opts := [], prompts := [] }
    have htn : t = [] := by
      have : ([] : List PromptEvent) = [] ++ t := by
        rw [← ht]
        exact hp.symm
      simpa using this.symm
    have hfix := hnil htn
    unfold resolveAndPersist
    rw [hfix]
    rfl

/-- Witness for the amended C9: a run over no scripts starting from empty
stores performs no write. -/
theorem persist_iff_nonempty_witness :
    (resolveAndPersist oracleEx [] [] []).2 = [] :=
  (persist_iff_nonempty oracleEx [] [] []).2.2 rfl rfl rfl

/-- Counterexample for C9 as stated: a run in which no new keys are resolved
(the prompt log stays empty) still writes the global argument store back to
disk, because the store was loaded non-empty. -/
theorem persist_rewrites_unchanged_store :
    resolveAndPersist oracleEx [scriptDirEx] [("DIR", Value.str "/x")] [] =
      ({ args := [("DIR", Value.str "/x")], opts := [], prompts := [] },
       [WriteEvent.writeGlobalArgs [("DIR", Value.str "/x")]]) := by
  decide

/-! ## Lemmas: list indexing and edge counting -/

theorem getD_set_self {α : Type} (l : List α) (i : Nat) (x d : α)
    (h : i < l.length) : (l.set i x).getD i d = x := by
  induction l generalizing i with
  | nil => cases h
  | cons a rest ih =>
    cases i with
    | zero => rfl
    | succ n => exact ih n (by simpa using h)

theorem getD_set_ne {α : Type} (l : List α) (i j : Nat) (x d : α)
    (h : ¬ j = i) : (l.set i x).getD j d = l.getD j d := by
  induction l generalizing i j with
  | nil => rfl
  | cons a rest ih =>
    cases i with
    | zero =>
      cases j with
      | zero => exact absurd rfl h
      | succ m => rfl
    | succ n =>
      cases j with
      | zero => rfl
      | succ m => exact ih n m (fun hx => h (by rw [hx]))

theorem countIn_nil (adj : List (List Nat)) (i : Nat) : countIn adj i [] = 0 := rfl

theorem countIn_cons (adj : List (List Nat)) (i c : Nat) (S : List Nat) :
    countIn adj i (c :: S) = (adj.getD c []).count i + countIn adj i S := by
  simp [countIn]

theorem countIn_append (adj : List (List Nat)) (i : Nat) (S T : List Nat) :
    countIn adj i (S ++ T) = countIn adj i S + countIn adj i T := by
  simp [countIn]

theorem countIn_le_countAll (adj : List (List Nat)) (i : Nat) (S : List Nat)
    (hS : S.Nodup) (hb : ∀ c ∈ S, c < adj.length) :
    countIn adj i S ≤ countAll adj i := by
  have hsub : List.Subperm S (List.range adj.length) :=
    List.Nodup.subperm hS (fun c hc => List.mem_range.mpr (hb c hc))
  obtain ⟨u, hperm, hsl⟩ := hsub
  have h1 : countIn adj i S = countIn adj i u := by
    unfold countIn
    exact ((hperm.map (fun c => (adj.getD c []).count i)).sum_eq).symm
  have h2 : countIn adj i u ≤ countAll adj i := by
    unfold countIn countAll
    exact List.Sublist.sum_le_sum (hsl.map (fun c => (adj.getD c []).count i)) (by simp)
  rw [h1]
  exact h2

theorem toNatSum_nil : toNatSum [] = 0 := rfl

theorem toNatSum_set (D : List Int) (i : Nat) (x : Int) (h : i < D.length) :
    toNatSum (D.set i x) + (D.getD i 0).toNat = toNatSum D + x.toNat := by
  induction D generalizing i with
  | nil => cases h
  | cons a rest ih =>
    cases i with
    | zero => simp [toNatSum]; omega
    | succ n =>
      have := ih n (by simpa using h)
      simp only [List.set, toNatSum, List.map, List.sum_cons, List.getD_cons_succ] at this ⊢
      omega

/-! ## Lemmas: the successor-processing loop of Kahn's algorithm -/

theorem count_cons_ne (d x : Nat) (rest : List Nat) (h : ¬ x = d) :
    (d :: rest).count x = rest.count x := by
  have hdx : ¬ d = x := fun hx => h hx.symm
  rw [List.count_cons]
  simp [hdx]

theorem processSuccessors_spec (succs : List Nat) (D : List Int) (q : List Nat)
    (hlen : ∀ d ∈ succs, d < D.length)
    (hpre : ∀ d, (succs.count d : Int) ≤ D.getD d 0) :
    (processSuccessors succs (D, q)).1.length = D.length ∧
    (∀ i, (processSuccessors succs (D, q)).1.getD i 0 =
      D.getD i 0 - succs.count i) ∧
    ∃ ds, (processSuccessors succs (D, q)).2 = q ++ ds ∧ ds.Nodup ∧
      (∀ d, d ∈ ds ↔ d ∈ succs ∧ D.getD d 0 - succs.count d = 0) := by
  induction succs generalizing D q with
  | nil =>
    refine ⟨rfl, ?_, [], ?_, List.nodup_nil, ?_⟩
    · intro i
      simp [processSuccessors]
    · simp [processSuccessors]
    · intro x
      simp
  | cons d rest ih =>
    have hd : d < D.length := hlen d (by simp)
    have hstep : processSuccessors (d :: rest) (D, q) =
        processSuccessors rest
          (D.set d (D.getD d 0 - 1),
           if D.getD d 0 - 1 = 0 then q ++ [d] else q) := rfl
    set v := D.getD d 0 - 1 with hv
    have hpred : (rest.count d + 1 : Int) ≤ D.getD d 0 := by
      have := hpre d
      simp only [List.count_cons_self] at this
      push_cast at this
      omega
    have hlen1 : ∀ x ∈ rest, x < (D.set d v).length := by
      intro x hx
      simpa using hlen x (by simp [hx])
    have hpre1 : ∀ x, (rest.count x : Int) ≤ (D.set d v).getD x 0 := by
      intro x
      by_cases hx : x = d
      · subst hx
        rw [getD_set_self _ _ _ _ hd]
        omega
      · rw [getD_set_ne _ _ _ _ _ hx]
        have := hpre x
        rw [count_cons_ne d x rest hx] at this
        exact this
    by_cases hvz : v = 0
    · obtain ⟨ihl, ihg, ds', ihq, ihn, ihm⟩ := ih (D.set d v) (q ++ [d]) hlen1 hpre1
      have hone : D.getD d 0 = 1 := by omega
      have hrc : rest.count d = 0 := by
        have := hpred
        omega
      have hdrest : d ∉ rest := by
        rw [← List.count_eq_zero]
        exact hrc
      have hdds : d ∉ ds' := fun hmem => hdrest ((ihm d).mp hmem).1
      rw [if_pos hvz] at hstep
      rw [hstep]
      refine ⟨by simpa using ihl, ?_, d :: ds', ?_, ?_, ?_⟩
      · intro i
        rw [ihg i]
        by_cases hi : i = d
        · subst hi
          rw [getD_set_self _ _ _ _ hd]
          simp only [List.count_cons_self]
          push_cast
          omega
        · rw [getD_set_ne _ _ _ _ _ hi]
          rw [count_cons_ne d i rest hi]
      · rw [ihq, List.append_assoc]
        rfl
      · exact List.nodup_cons.mpr ⟨hdds, ihn⟩
      · intro x
        by_cases hx : x = d
        · subst hx
          constructor
          · intro _
            refine ⟨by simp, ?_⟩
            simp only [List.count_cons_self]
            push_cast
            omega
          · intro _
            simp
        · have hc : (d :: rest).count x = rest.count x := count_cons_ne d x rest hx
          constructor
          · intro hmem
            have hmem' : x ∈ ds' := by
              rcases List.mem_cons.mp hmem with h | h
              · exact absurd h hx
              · exact h
            obtain ⟨h1, h2⟩ := (ihm x).mp hmem'
            rw [getD_set_ne _ _ _ _ _ hx] at h2
            exact ⟨by simp [h1], by rw [hc]; exact h2⟩
          · intro ⟨h1, h2⟩
            have h1' : x ∈ rest := by
              rcases List.mem_cons.mp h1 with h | h
              · exact absurd h hx
              · exact h
            refine List.mem_cons.mpr (Or.inr ((ihm x).mpr ⟨h1', ?_⟩))
            rw [getD_set_ne _ _ _ _ _ hx, ← hc]
            exact h2
    · obtain ⟨ihl, ihg, ds', ihq, ihn, ihm⟩ := ih (D.set d v) q hlen1 hpre1
      rw [if_neg hvz] at hstep
      rw [hstep]
      refine ⟨by simpa using ihl, ?_, ds', ihq, ihn, ?_⟩
      · intro i
        rw [ihg i]
        by_cases hi : i = d
        · subst hi
          rw [getD_set_self _ _ _ _ hd]
          simp only [List.count_cons_self]
          push_cast
          omega
        · rw [getD_set_ne _ _ _ _ _ hi]
          rw [count_cons_ne d i rest hi]
      · intro x
        by_cases hx : x = d
        · subst hx
          rw [ihm x]
          rw [getD_set_self _ _ _ _ hd]
          constructor
          · intro ⟨h1, h2⟩
            refine ⟨by simp, ?_⟩
            simp only [List.count_cons_self]
            push_cast
            omega
          · intro ⟨_, h2⟩
            simp only [List.count_cons_self] at h2
            push_cast at h2
            have hrc : x ∈ rest := by
              rw [← List.count_pos_iff]
              omega
            exact ⟨hrc, by omega⟩
        · rw [ihm x, getD_set_ne _ _ _ _ _ hx]
          rw [count_cons_ne d x rest hx]
          constructor
          · intro ⟨h1, h2⟩
            exact ⟨by simp [h1], h2⟩
          · intro ⟨h1, h2⟩
            rcases List.mem_cons.mp h1 with h | h
            · exact absurd h hx
            · exact ⟨h, h2⟩

theorem processSuccessors_measure (succs : List Nat) (D : List Int) (q : List Nat) :
    (processSuccessors succs (D, q)).2.length +
      toNatSum (processSuccessors succs (D, q)).1 ≤
    q.length + toNatSum D := by
  induction succs generalizing D q with
  | nil => exact le_rfl
  | cons d rest ih =>
    have hstep : processSuccessors (d :: rest) (D, q) =
        processSuccessors rest
          (D.set d (D.getD d 0 - 1),
           if D.getD d 0 - 1 = 0 then q ++ [d] else q) := rfl
    rw [hstep]
    by_cases hvz : D.getD d 0 - 1 = 0
    · have hd : d < D.length := by
        by_contra hle
        rw [List.getD_eq_default _ _ (by omega)] at hvz
        omega
      have hsum := toNatSum_set D d (D.getD d 0 - 1) hd
      have hone : D.getD d 0 = 1 := by omega
      rw [if_pos hvz]
      have := ih (D.set d (D.getD d 0 - 1)) (q ++ [d])
      have hq : (q ++ [d]).length = q.length + 1 := by simp
      omega
    · rw [if_neg hvz]
      have := ih (D.set d (D.getD d 0 - 1)) q
      by_cases hd : d < D.length
      · have hsum := toNatSum_set D d (D.getD d 0 - 1) hd
        have hmono : (D.getD d 0 - 1).toNat ≤ (D.getD d 0).toNat := by omega
        omega
      · have hset : D.set d (D.getD d 0 - 1) = D := List.set_eq_of_length_le (by omega)
        rw [hset]
        exact ih D q

theorem getD_mem_of_lt {α : Type} (l : List α) (i : Nat) (d : α)
    (h : i < l.length) : l.getD i d ∈ l := by
  rw [List.getD_eq_getElem l d h]
  exact List.getElem_mem h

/-! ## The main invariant of the Kahn loop

For a well-formed adjacency list and a consistent state (the in-degree vector
counts exactly the edges from nodes not yet output, the queue holds exactly
the ready nodes, and everything output so far had all its dependencies output
earlier), the loop outputs the current acc, then the current queue in order,
then some continuation; the output has no duplicates; and every element of
the output has all its incoming edges coming from its prefix. -/

theorem kahn_master (adj : List (List Nat))
    (hwf : ∀ l ∈ adj, ∀ d ∈ l, d < adj.length) :
    ∀ (fuel : Nat) (q : List Nat) (D : List Int) (A : List Nat),
      q.length + toNatSum D ≤ fuel →
      D.length = adj.length →
      (A ++ q).Nodup →
      (∀ i ∈ A ++ q, i < adj.length) →
      (∀ i, i < adj.length → D.getD i 0 = (countAll adj i : Int) - countIn adj i A) →
      (∀ i ∈ q, countIn adj i A = countAll adj i) →
      (∀ A1 i A2, A = A1 ++ i :: A2 → countIn adj i A1 = countAll adj i) →
      (∃ P, kahnFuel adj fuel q D A = A ++ q ++ P) ∧
      (kahnFuel adj fuel q D A).Nodup ∧
      (∀ i ∈ kahnFuel adj fuel q D A, i < adj.length) ∧
      (∀ R1 i R2, kahnFuel adj fuel q D A = R1 ++ i :: R2 →
        countIn adj i R1 = countAll adj i) := by
  intro fuel
  induction fuel with
  | zero =>
    intro q D A hfuel hlen hnd hbd h2 hq hA
    have hq0 : q = [] := List.length_eq_zero.mp (by omega)
    subst hq0
    refine ⟨⟨[], by simp [kahnFuel]⟩, by simpa [kahnFuel] using hnd, ?_, ?_⟩
    · intro i hi
      exact hbd i (by simpa [kahnFuel] using hi)
    · intro R1 i R2 hsplit
      exact hA R1 i R2 (by simpa [kahnFuel] using hsplit)
  | succ fuel ih =>
    intro q D A hfuel hlen hnd hbd h2 hq hA
    cases q with
    | nil =>
      refine ⟨⟨[], by simp [kahnFuel]⟩, by simpa [kahnFuel] using hnd, ?_, ?_⟩
      · intro i hi
        exact hbd i (by simpa [kahnFuel] using hi)
      · intro R1 i R2 hsplit
        exact hA R1 i R2 (by simpa [kahnFuel] using hsplit)
    | cons c q' =>
      have hc_lt : c < adj.length := hbd c (by simp)
      have hsucc_bd : ∀ x ∈ adj.getD c [], x < adj.length :=
        hwf (adj.getD c []) (getD_mem_of_lt adj c [] hc_lt)
      have hndA : A.Nodup := hnd.of_append_left
      have hbdA : ∀ i ∈ A, i < adj.length := fun i hi => hbd i (by simp [hi])
      have hndAc : (A ++ [c]).Nodup := by
        have h1 : ((A ++ [c]) ++ q').Nodup := by
          rw [← List.append_cons]
          exact hnd
        exact h1.of_append_left
      have hbdAc : ∀ i ∈ A ++ [c], i < adj.length := by
        intro i hi
        rcases List.mem_append.mp hi with h | h
        · exact hbdA i h
        · simp at h
          subst h
          exact hc_lt
      have hpre : ∀ d, ((adj.getD c []).count d : Int) ≤ D.getD d 0 := by
        intro d
        by_cases hdn : d < adj.length
        · have hcnt : countIn adj d (A ++ [c]) ≤ countAll adj d :=
            countIn_le_countAll adj d _ hndAc hbdAc
          rw [countIn_append, countIn_cons, countIn_nil] at hcnt
          have h2d := h2 d hdn
          omega
        · have hz : (adj.getD c []).count d = 0 :=
            List.count_eq_zero.mpr (fun hmem => hdn (hsucc_bd d hmem))
          rw [hz, List.getD_eq_default _ _ (by omega)]
          simp
      obtain ⟨psl, psg, ds, psq, psn, psm⟩ :=
        processSuccessors_spec (adj.getD c []) D q'
          (fun x hx => by rw [hlen]; exact hsucc_bd x hx) hpre
      have hstep : kahnFuel adj (fuel+1) (c :: q') D A =
          kahnFuel adj fuel (processSuccessors (adj.getD c []) (D, q')).2
            (processSuccessors (adj.getD c []) (D, q')).1 (A ++ [c]) := rfl
      have hq_head : countIn adj c A = countAll adj c := hq c (by simp)
      have hds_facts : ∀ d ∈ ds, d < adj.length ∧
          countIn adj d (A ++ [c]) = countAll adj d ∧ (1 : Int) ≤ D.getD d 0 := by
        intro d hd
        obtain ⟨hmem, hzero⟩ := (psm d).mp hd
        have hdn : d < adj.length := hsucc_bd d hmem
        have h2d := h2 d hdn
        have hcp : 0 < (adj.getD c []).count d := List.count_pos_iff.mpr hmem
        refine ⟨hdn, ?_, by omega⟩
        rw [countIn_append, countIn_cons, countIn_nil]
        omega
      have hds_disj : ∀ d ∈ ds, d ∉ A ++ c :: q' := by
        intro d hd hmem
        have hdD := (hds_facts d hd).2.2
        rcases List.mem_append.mp hmem with hin | hin
        · obtain ⟨A1, A2, hsplitA⟩ := List.append_of_mem hin
          have hA1 := hA A1 d A2 hsplitA
          have hle : countIn adj d A ≤ countAll adj d :=
            countIn_le_countAll adj d A hndA hbdA
          have hge : countAll adj d ≤ countIn adj d A := by
            rw [hsplitA, countIn_append, countIn_cons]
            omega
          have h2d := h2 d ((hds_facts d hd).1)
          omega
        · rcases List.mem_cons.mp hin with h | h
          · subst h
            have h2d := h2 d ((hds_facts d hd).1)
            rw [hq_head] at h2d
            omega
          · have := hq d (by simp [h])
            have h2d := h2 d ((hds_facts d hd).1)
            rw [this] at h2d
            omega
      have hmeasure := processSuccessors_measure (adj.getD c []) D q'
      have hnd' : ((A ++ [c]) ++ (q' ++ ds)).Nodup := by
        have hX : ((A ++ c :: q') ++ ds).Nodup := by
          refine List.nodup_append.mpr ⟨hnd, psn, ?_⟩
          intro x hx hxds
          exact hds_disj x hxds hx
        have heq : (A ++ [c]) ++ (q' ++ ds) = (A ++ c :: q') ++ ds := by
          simp only [List.append_assoc, List.cons_append, List.singleton_append, List.nil_append]
        rw [heq]
        exact hX
      have hbd' : ∀ i ∈ (A ++ [c]) ++ (q' ++ ds), i < adj.length := by
        intro i hi
        rcases List.mem_append.mp hi with h | h
        · exact hbdAc i h
        · rcases List.mem_append.mp h with h | h
          · exact hbd i (by simp [h])
          · exact (hds_facts i h).1
      have h2' : ∀ i, i < adj.length →
          (processSuccessors (adj.getD c []) (D, q')).1.getD i 0 =
            (countAll adj i : Int) - countIn adj i (A ++ [c]) := by
        intro i hi
        rw [psg i, h2 i hi, countIn_append, countIn_cons, countIn_nil]
        push_cast
        ring
      have hq' : ∀ i ∈ q' ++ ds, countIn adj i (A ++ [c]) = countAll adj i := by
        intro i hi
        rcases List.mem_append.mp hi with h | h
        · have hiq := hq i (by simp [h])
          have hle : countIn adj i (A ++ [c]) ≤ countAll adj i :=
            countIn_le_countAll adj i _ hndAc hbdAc
          rw [countIn_append, countIn_cons, countIn_nil] at hle ⊢
          omega
        · exact (hds_facts i h).2.1
      have hA' : ∀ A1 i A2, A ++ [c] = A1 ++ i :: A2 →
          countIn adj i A1 = countAll adj i := by
        intro A1 i A2 hsplit
        rcases A2.eq_nil_or_concat with h | ⟨L, b, h⟩
        · subst h
          obtain ⟨hAe, hce⟩ := List.append_inj' hsplit rfl
          obtain hc2 := List.cons.inj hce
          subst hAe
          rw [← hc2.1]
          exact hq_head
        · subst h
          rw [List.concat_eq_append] at hsplit
          have hsplit2 : A ++ [c] = (A1 ++ i :: L) ++ [b] := by
            rw [hsplit]
            simp
          obtain ⟨hAe, hce⟩ := List.append_inj' hsplit2 rfl
          exact hA A1 i L hAe
      have hfuel' : (q' ++ ds).length +
          toNatSum (processSuccessors (adj.getD c []) (D, q')).1 ≤ fuel := by
        rw [← psq]
        have : (c :: q').length + toNatSum D ≤ fuel + 1 := hfuel
        simp only [List.length_cons] at this
        omega
      have hIH := ih (q' ++ ds) (processSuccessors (adj.getD c []) (D, q')).1
        (A ++ [c]) hfuel' (psl.trans hlen) hnd' hbd' h2' hq' hA'
      obtain ⟨⟨P', hP'⟩, hndR, hbdR, hiiR⟩ := hIH
      rw [hstep, psq]
      refine ⟨⟨ds ++ P', ?_⟩, hndR, hbdR, hiiR⟩
      rw [hP']
      simp only [List.append_assoc, List.cons_append, List.singleton_append, List.nil_append]

/-! ## Lemmas: graph construction -/

theorem foldl_preserve_mem {α β : Type} (f : α → β → α) (Q : α → Prop) :
    ∀ (l : List β), (∀ st x, x ∈ l → Q st → Q (f st x)) →
      ∀ st, Q st → Q (l.foldl f st) := by
  intro l
  induction l with
  | nil => intro _ st hq; exact hq
  | cons x rest ih =>
    intro h st hq
    exact ih (fun st' y hy => h st' y (by simp [hy])) (f st x) (h st x (by simp) hq)

theorem getD_replicate {α : Type} (n c : Nat) (x : α) :
    (List.replicate n x).getD c x = x := by
  induction n generalizing c with
  | zero => rfl
  | succ m ih =>
    cases c with
    | zero => rfl
    | succ c' => exact ih c'

theorem scriptPathToIndex_lt (scripts : List Script) (p : String) (j : Nat)
    (h : scriptPathToIndex scripts p = some j) : j < scripts.length := by
  have key : ∀ (acc : Option Nat),
      (∀ j', acc = some j' → j' < scripts.length) →
      ∀ j', scripts.enum.foldl
        (fun acc is => if is.2.absolutePathname == p then some is.1 else acc) acc =
          some j' → j' < scripts.length := by
    intro acc hacc
    have := foldl_preserve_mem
      (fun (acc : Option Nat) (is : Nat × Script) =>
        if is.2.absolutePathname == p then some is.1 else acc)
      (fun acc => ∀ j', acc = some j' → j' < scripts.length)
      scripts.enum ?_ acc hacc
    · exact this
    · intro st x hx hst j' hj'
      have hj2 : (if (x.2.absolutePathname == p) = true then some x.1 else st) =
          some j' := hj'
      by_cases hcond : (x.2.absolutePathname == p) = true
      · rw [if_pos hcond] at hj2
        have hxj := Option.some.inj hj2
        rw [← hxj]
        exact List.fst_lt_of_mem_enum hx
      · rw [if_neg hcond] at hj2
        exact hst j' hj2
  exact key none (by intro j' hj'; cases hj') j h

theorem countIn_congr (adj adj' : List (List Nat)) (x : Nat) (S : List Nat)
    (h : ∀ c ∈ S, adj'.getD c [] = adj.getD c []) :
    countIn adj' x S = countIn adj x S := by
  unfold countIn
  congr 1
  exact List.map_congr_left (fun c hc => by rw [h c hc])

theorem countAll_edgeInsert (adj : List (List Nat)) (j i : Nat)
    (hj : j < adj.length) (x : Nat) :
    countAll (adj.set j (adj.getD j [] ++ [i])) x =
      countAll adj x + (if x = i then 1 else 0) := by
  have hlen : (adj.set j (adj.getD j [] ++ [i])).length = adj.length := by simp
  have hjr : j ∈ List.range adj.length := List.mem_range.mpr hj
  obtain ⟨R1, R2, hsplit⟩ := List.append_of_mem hjr
  have hndr : (R1 ++ j :: R2).Nodup := by
    rw [← hsplit]
    exact List.nodup_range _
  have hjR1 : j ∉ R1 := by
    intro hmem
    exact (List.disjoint_of_nodup_append hndr) hmem (by simp)
  have hjR2 : j ∉ R2 := (List.nodup_cons.mp hndr.of_append_right).1
  unfold countAll
  rw [hlen, hsplit, countIn_append, countIn_cons, countIn_append, countIn_cons]
  rw [countIn_congr adj _ x R1
    (fun c hc => getD_set_ne _ _ _ _ _ (fun he : c = j => hjR1 (by rw [← he]; exact hc)))]
  rw [countIn_congr adj _ x R2
    (fun c hc => getD_set_ne _ _ _ _ _ (fun he : c = j => hjR2 (by rw [← he]; exact hc)))]
  rw [getD_set_self _ _ _ _ hj, List.count_append]
  have hone : List.count x [i] = if x = i then 1 else 0 := by
    by_cases hx : x = i
    · subst hx
      simp
    · rw [List.count_eq_zero.mpr (by simp [hx]), if_neg hx]
  rw [hone]
  by_cases hx : x = i
  · rw [if_pos hx]
    omega
  · rw [if_neg hx]
    omega

/-- The invariant carried through the graph-building fold: lengths match the
script count, edge targets are in range, and the in-degree vector counts the
incoming edges of the adjacency built so far. -/
def BuildInv (n : Nat) (st : List (List Nat) × List Int) : Prop :=
  st.1.length = n ∧ st.2.length = n ∧
  (∀ l ∈ st.1, ∀ d ∈ l, d < n) ∧
  (∀ x, x < n → st.2.getD x 0 = (countAll st.1 x : Int))

theorem edgeInsert_inv (n : Nat) (st : List (List Nat) × List Int) (j i : Nat)
    (hj : j < n) (hi : i < n) (hQ : BuildInv n st) :
    BuildInv n (edgeInsert st j i) := by
  obtain ⟨h1, h2, h3, h4⟩ := hQ
  refine ⟨by simp [edgeInsert, h1], by simp [edgeInsert, h2], ?_, ?_⟩
  · intro l hl d hd
    rcases List.mem_or_eq_of_mem_set hl with h | h
    · exact h3 l h d hd
    · subst h
      rcases List.mem_append.mp hd with h | h
      · exact h3 _ (getD_mem_of_lt _ _ _ (by omega)) d h
      · simp at h
        subst h
        exact hi
  · intro x hx
    have hcount := countAll_edgeInsert st.1 j i (by omega) x
    unfold edgeInsert
    simp only
    rw [hcount]
    by_cases hxi : x = i
    · subst hxi
      rw [getD_set_self _ _ _ _ (by omega), h4 x hx]
      simp
    · rw [getD_set_ne _ _ _ _ _ hxi, h4 x hx]
      simp [hxi]

theorem buildGraph_spec (scripts : List Script) (lookup : String → Option String) :
    BuildInv scripts.length (buildGraph scripts lookup) := by
  unfold buildGraph
  apply foldl_preserve_mem _ (BuildInv scripts.length)
  · intro st is his hst
    dsimp only
    cases hcase : is.2.after with
    | none => exact hst
    | some l =>
      apply foldl_preserve _ (BuildInv scripts.length)
      · intro st' a hst'
        dsimp only
        split
        · exact hst'
        · split
          · exact hst'
          · rename_i j hidx
            exact edgeInsert_inv scripts.length st' j is.1
              (scriptPathToIndex_lt scripts _ j hidx)
              (List.fst_lt_of_mem_enum his) hst'
      · exact hst
  · refine ⟨by simp, by simp, ?_, ?_⟩
    · intro l hl d hd
      rw [List.eq_of_mem_replicate hl] at hd
      cases hd
    · intro x hx
      rw [getD_replicate]
      have : countAll (List.replicate scripts.length ([] : List Nat)) x = 0 := by
        unfold countAll countIn
        apply List.sum_eq_zero
        intro y hy
        obtain ⟨c, hc, hcy⟩ := List.mem_map.mp hy
        rw [getD_replicate] at hcy
        simp at hcy
        omega
      rw [this]
      simp

theorem seeds_nodup (D : List Int) : (seeds D).Nodup :=
  List.Nodup.filter _ (List.nodup_range _)

theorem seeds_mem (D : List Int) (i : Nat) :
    i ∈ seeds D ↔ i < D.length ∧ D.getD i 0 = 0 := by
  unfold seeds
  rw [List.mem_filter, List.mem_range]
  simp

/-! ## Lemmas: the sort pipeline -/

theorem sortCore_ok_spec (scripts : List Script) (g : List (List Nat) × List Int)
    (ord : List Nat) (hinv : BuildInv scripts.length g)
    (h : sortCore scripts g = .ok ord) :
    ord.Perm (List.range scripts.length) ∧
    (∃ P, ord = seeds g.2 ++ P) ∧
    (∀ R1 i R2, ord = R1 ++ i :: R2 → ∀ j, depEdge g.1 j i → j ∈ R1) := by
  obtain ⟨hl1, hl2, hwf, hcons⟩ := hinv
  have hwf' : ∀ l ∈ g.1, ∀ d ∈ l, d < g.1.length := by
    rw [hl1]
    exact hwf
  have hmaster := kahn_master g.1 hwf'
    ((seeds g.2).length + toNatSum g.2 + 1) (seeds g.2) g.2 []
    (by omega) (hl2.trans hl1.symm) (by simpa using seeds_nodup g.2)
    (by
      intro i hi
      simp only [List.nil_append] at hi
      have := (seeds_mem g.2 i).mp hi
      omega)
    (by
      intro i hi
      rw [countIn_nil, hcons i (by omega)]
      simp)
    (by
      intro i hi
      have hz := ((seeds_mem g.2 i).mp hi).2
      have hc := hcons i (by have := ((seeds_mem g.2 i).mp hi).1; omega)
      rw [countIn_nil]
      omega)
    (by
      intro A1 i A2 hsplit
      exact absurd hsplit.symm (by simp))
  obtain ⟨⟨P, hP⟩, hnd, hbd, hii⟩ := hmaster
  unfold sortCore at h
  by_cases hlen : (kahnFuel g.1 ((seeds g.2).length + toNatSum g.2 + 1)
      (seeds g.2) g.2 []).length = scripts.length
  · rw [if_pos hlen] at h
    have hord : ord = kahnFuel g.1 ((seeds g.2).length + toNatSum g.2 + 1)
        (seeds g.2) g.2 [] := (Except.ok.inj h).symm
    subst hord
    refine ⟨?_, ⟨P, by simpa using hP⟩, ?_⟩
    · refine List.Subperm.perm_of_length_le ?_ (by simp [hlen])
      refine List.Nodup.subperm hnd ?_
      intro i hi
      exact List.mem_range.mpr (by have := hbd i hi; omega)
    · intro R1 i R2 hsplit j hedge
      have hcount := hii R1 i R2 hsplit
      by_contra hjR1
      have hj_lt : j < g.1.length := by
        by_contra hge
        have hempty : g.1.getD j [] = [] := List.getD_eq_default _ _ (by omega)
        unfold depEdge at hedge
        rw [hempty] at hedge
        cases hedge
      have hndR1 : R1.Nodup := by
        rw [hsplit] at hnd
        exact hnd.of_append_left
      have hbdR1 : ∀ c ∈ j :: R1, c < g.1.length := by
        intro c hc
        rcases List.mem_cons.mp hc with hcj | hcR
        · omega
        · have : c ∈ kahnFuel g.1 ((seeds g.2).length + toNatSum g.2 + 1)
              (seeds g.2) g.2 [] := by
            rw [hsplit]
            exact List.mem_append_left _ hcR
          exact hbd c this
      have hle := countIn_le_countAll g.1 i (j :: R1)
        (List.nodup_cons.mpr ⟨hjR1, hndR1⟩) hbdR1
      rw [countIn_cons, hcount] at hle
      have hzero : (g.1.getD j []).count i = 0 := by omega
      exact (List.count_eq_zero.mp hzero) hedge
  · rw [if_neg hlen] at h
    cases h

/-- `sortCore` only ever throws the circular-dependency error. -/
theorem sortCore_error_circular (scripts : List Script)
    (g : List (List Nat) × List Int) (e : SortError)
    (h : sortCore scripts g = .error e) : ∃ ps, e = .circular ps := by
  unfold sortCore at h
  by_cases hlen : (kahnFuel g.1 ((seeds g.2).length + toNatSum g.2 + 1)
      (seeds g.2) g.2 []).length = scripts.length
  · rw [if_pos hlen] at h
    cases h
  · rw [if_neg hlen] at h
    exact ⟨_, (Except.error.inj h).symm⟩

theorem depGraph_eq_of_res_ok (fs : String → Bool) (dirs : List String)
    (scripts : List Script) (cache : List (String × String))
    (hres : resolveAfters fs dirs (aftersMap scripts) = .ok cache) :
    depGraph fs dirs scripts = (buildGraph scripts (cacheGet cache)).1 ∧
    depIndeg fs dirs scripts = (buildGraph scripts (cacheGet cache)).2 := by
  unfold depGraph depIndeg
  rw [hres]
  exact ⟨rfl, rfl⟩

theorem sortOrder_ok_spec (fs : String → Bool) (dirs : List String)
    (scripts : List Script) (ord : List Nat)
    (h : sortOrder fs dirs scripts = .ok ord) :
    sortScripts fs dirs scripts = .ok (ord.map (fun x => scripts.getD x default)) ∧
    ord.Perm (List.range scripts.length) ∧
    (∃ P, ord = seeds (depIndeg fs dirs scripts) ++ P) ∧
    (∀ R1 i R2, ord = R1 ++ i :: R2 →
      ∀ j, depEdge (depGraph fs dirs scripts) j i → j ∈ R1) := by
  have hS : sortScripts fs dirs scripts =
      .ok (ord.map fun x => scripts.getD x default) := by
    unfold sortScripts
    rw [h]
  cases hres : resolveAfters fs dirs (aftersMap scripts) with
  | error e =>
    exfalso
    unfold sortOrder sortOrderOn at h
    rw [hres] at h
    cases h
  | ok cache =>
    have hcore : sortCore scripts (buildGraph scripts (cacheGet cache)) = .ok ord := by
      unfold sortOrder sortOrderOn at h
      rw [hres] at h
      exact h
    have hspec := sortCore_ok_spec scripts _ ord
      (buildGraph_spec scripts (cacheGet cache)) hcore
    obtain ⟨hdg, hdi⟩ := depGraph_eq_of_res_ok fs dirs scripts cache hres
    refine ⟨hS, hspec.1, ?_, ?_⟩
    · rw [hdi]
      exact hspec.2.1
    · rw [hdg]
      exact hspec.2.2

theorem indexOf_append_lt (R1 : List Nat) (rest : List Nat) (j : Nat)
    (hj : j ∈ R1) : (R1 ++ rest).indexOf j < R1.length := by
  induction R1 with
  | nil => cases hj
  | cons a R1' ih =>
    by_cases hja : j = a
    · subst hja
      simp [List.indexOf_cons_self]
    · have hj' : j ∈ R1' := by
        rcases List.mem_cons.mp hj with h | h
        · exact absurd h hja
        · exact h
      have : ((a :: R1') ++ rest).indexOf j = (R1' ++ rest).indexOf j + 1 := by
        simp only [List.cons_append]
        exact List.indexOf_cons_ne _ (fun he => hja he.symm)
      rw [this]
      have := ih hj'
      simp only [List.length_cons]
      omega

theorem indexOf_append_self (R1 R2 : List Nat) (i : Nat) (hi : i ∉ R1) :
    (R1 ++ i :: R2).indexOf i = R1.length := by
  induction R1 with
  | nil => simp [List.indexOf_cons_self]
  | cons a R1' ih =>
    have hia : ¬ i = a := fun he => hi (by simp [he])
    have : ((a :: R1') ++ i :: R2).indexOf i = (R1' ++ i :: R2).indexOf i + 1 := by
      simp only [List.cons_append]
      exact List.indexOf_cons_ne _ (fun he => hia he.symm)
    rw [this, ih (fun hm => hi (by simp [hm]))]
    simp

/-- Position ordering along resolved edges in a successful sort output. -/
theorem edge_indexOf_lt (adj : List (List Nat)) (ord : List Nat)
    (hnd : ord.Nodup)
    (hprop : ∀ R1 i R2, ord = R1 ++ i :: R2 → ∀ j, depEdge adj j i → j ∈ R1)
    (hmemE : ∀ a b, depEdge adj a b → b ∈ ord) :
    ∀ a b, depEdge adj a b → ord.indexOf a < ord.indexOf b := by
  intro a b hedge
  obtain ⟨R1, R2, hsplit⟩ := List.append_of_mem (hmemE a b hedge)
  have haR1 : a ∈ R1 := hprop R1 b R2 hsplit a hedge
  have hbR1 : b ∉ R1 := by
    rw [hsplit] at hnd
    intro hmem
    exact (List.disjoint_of_nodup_append hnd) hmem (by simp)
  rw [hsplit]
  rw [indexOf_append_self R1 R2 b hbR1]
  exact indexOf_append_lt R1 (b :: R2) a haR1

theorem depGraph_no_edge_of_res_error (fs : String → Bool) (dirs : List String)
    (scripts : List Script) (e0 : SortError)
    (hres : resolveAfters fs dirs (aftersMap scripts) = .error e0) :
    ∀ j i, ¬ depEdge (depGraph fs dirs scripts) j i := by
  intro j i hedge
  unfold depGraph at hedge
  rw [hres] at hedge
  unfold depEdge at hedge
  rw [getD_replicate] at hedge
  cases hedge

theorem depGraph_wf (fs : String → Bool) (dirs : List String)
    (scripts : List Script) :
    (depGraph fs dirs scripts).length = scripts.length ∧
    ∀ l ∈ depGraph fs dirs scripts, ∀ d ∈ l, d < scripts.length := by
  unfold depGraph
  cases hres : resolveAfters fs dirs (aftersMap scripts) with
  | error e =>
    refine ⟨by simp, ?_⟩
    intro l hl d hd
    rw [List.eq_of_mem_replicate hl] at hd
    cases hd
  | ok cache =>
    obtain ⟨h1, _, h3, _⟩ := buildGraph_spec scripts (cacheGet cache)
    exact ⟨h1, h3⟩

/-- C1: a successful `sortScripts` run returns a valid topological order:
the index order is a permutation of all script indices, and for every
resolved dependency edge from script `j` (the dependency) to script `i` (the
dependent, which declared `j` in its `after` list), `j` lies in the part of
the output before `i` — `j` runs earlier. -/
theorem sortScripts_topological (fs : String → Bool) (dirs : List String)
    (scripts : List Script) (ord : List Nat)
    (h : sortOrder fs dirs scripts = .ok ord) :
    sortScripts fs dirs scripts = .ok (ord.map (fun x => scripts.getD x default)) ∧
    ord.Perm (List.range scripts.length) ∧
    ∀ R1 i R2, ord = R1 ++ i :: R2 →
      ∀ j, depEdge (depGraph fs dirs scripts) j i → j ∈ R1 := by
  obtain ⟨hS, hperm, _, hprop⟩ := sortOrder_ok_spec fs dirs scripts ord h
  exact ⟨hS, hperm, hprop⟩

/-- Witness for C1 on scenario A: `a.sh` declares `after b.sh`; the resolved
order is `[b.sh, a.sh]` and the edge from index 1 (the dependency) to index 0
(the dependent) puts 1 before 0. -/
theorem sortScripts_topological_witness :
    sortOrder fsEx ["/d"] scriptsAB = .ok [1, 0] ∧
    sortScripts fsEx ["/d"] scriptsAB =
      .ok [mkScript "b.sh", mkScript "a.sh" (some ["b.sh"])] ∧
    depEdge (depGraph fsEx ["/d"] scriptsAB) 1 0 ∧
    (1 : Nat) ∈ [1] := by
  have hord : sortOrder fsEx ["/d"] scriptsAB = .ok [1, 0] := by rfl
  have hedge : depEdge (depGraph fsEx ["/d"] scriptsAB) 1 0 := by decide
  obtain ⟨hS, _, hprop⟩ := sortScripts_topological fsEx ["/d"] scriptsAB [1, 0] hord
  refine ⟨hord, ?_, hedge, ?_⟩
  · rw [hS]
    rfl
  · exact hprop [1] 0 [] rfl 1 hedge

/-- C2: whenever the resolved dependency graph contains a cycle, `sortScripts`
throws the circular-dependency error, whose payload is the pathnames of the
scripts already ordered; no order is returned and the pipeline starts no
script. -/
theorem sortScripts_fails_on_cycle (fs : String → Bool) (dirs : List String)
    (scripts : List Script)
    (hcyc : ∃ i, Relation.TransGen (depEdge (depGraph fs dirs scripts)) i i) :
    ∃ ps, sortOrder fs dirs scripts = .error (.circular ps) ∧
      sortScripts fs dirs scripts = .error (.circular ps) ∧
      ∀ exitCode, startedScripts fs dirs scripts exitCode = [] := by
  obtain ⟨i0, hT⟩ := hcyc
  cases hord : sortOrder fs dirs scripts with
  | ok ord =>
    exfalso
    obtain ⟨_, hperm, _, hprop⟩ := sortOrder_ok_spec fs dirs scripts ord hord
    have hnd : ord.Nodup := hperm.nodup_iff.mpr (List.nodup_range _)
    obtain ⟨hglen, hgwf⟩ := depGraph_wf fs dirs scripts
    have hmemE : ∀ a b, depEdge (depGraph fs dirs scripts) a b → b ∈ ord := by
      intro a b hedge
      have hb : b < scripts.length := by
        unfold depEdge at hedge
        by_cases ha : a < (depGraph fs dirs scripts).length
        · exact hgwf _ (getD_mem_of_lt _ _ _ ha) b hedge
        · rw [List.getD_eq_default _ _ (by omega)] at hedge
          cases hedge
      exact hperm.mem_iff.mpr (List.mem_range.mpr hb)
    have hlt := edge_indexOf_lt (depGraph fs dirs scripts) ord hnd hprop hmemE
    have : ∀ a b, Relation.TransGen (depEdge (depGraph fs dirs scripts)) a b →
        ord.indexOf a < ord.indexOf b := by
      intro a b hTG
      induction hTG with
      | single he => exact hlt _ _ he
      | tail _ he ih => exact lt_trans ih (hlt _ _ he)
    exact lt_irrefl _ (this i0 i0 hT)
  | error e =>
    cases hres : resolveAfters fs dirs (aftersMap scripts) with
    | error e0 =>
      exfalso
      have hnoedge := depGraph_no_edge_of_res_error fs dirs scripts e0 hres
      cases hT with
      | single he => exact hnoedge _ _ he
      | tail _ he => exact hnoedge _ _ he
    | ok cache =>
      have hcore : sortCore scripts (buildGraph scripts (cacheGet cache)) =
          .error e := by
        unfold sortOrder sortOrderOn at hord
        rw [hres] at hord
        exact hord
      obtain ⟨ps, hps⟩ := sortCore_error_circular scripts _ e hcore
      subst hps
      refine ⟨ps, rfl, ?_, ?_⟩
      · unfold sortScripts
        rw [hord]
      · intro exitCode
        unfold startedScripts runPipeline sortScripts
        rw [hord]

/-- Witness for C2: the two-script cycle `a.sh after b.sh`, `b.sh after a.sh`
has a transitive self-loop, so resolution throws the circular error and no
script starts. -/
theorem sortScripts_fails_on_cycle_witness :
    (∃ i, Relation.TransGen (depEdge (depGraph fsEx ["/d"] scriptsCyc)) i i) ∧
    ∃ ps, sortOrder fsEx ["/d"] scriptsCyc = .error (.circular ps) ∧
      sortScripts fsEx ["/d"] scriptsCyc = .error (.circular ps) ∧
      ∀ exitCode, startedScripts fsEx ["/d"] scriptsCyc exitCode = [] := by
  have he01 : depEdge (depGraph fsEx ["/d"] scriptsCyc) 0 1 := by decide
  have he10 : depEdge (depGraph fsEx ["/d"] scriptsCyc) 1 0 := by decide
  have hcyc : ∃ i, Relation.TransGen (depEdge (depGraph fsEx ["/d"] scriptsCyc)) i i :=
    ⟨0, Relation.TransGen.tail (Relation.TransGen.single he01) he10⟩
  exact ⟨hcyc, sortScripts_fails_on_cycle fsEx ["/d"] scriptsCyc hcyc⟩

/-- C7 (amended): the scripts whose resolved in-degree is zero (no resolved
dependency points into them) form the leading segment of the output, in
discovery order; for general pairs with no ordering constraint the FIFO queue
can interleave, so discovery order is not preserved in general (see the
counterexample). -/
theorem zero_indegree_scripts_lead (fs : String → Bool) (dirs : List String)
    (scripts : List Script) (ord : List Nat)
    (h : sortOrder fs dirs scripts = .ok ord) :
    ∃ P, ord = seeds (depIndeg fs dirs scripts) ++ P :=
  (sortOrder_ok_spec fs dirs scripts ord h).2.2.1

/-- Witness for the amended C7: on the four-script fixture the zero in-degree
scripts are 0, 2, 3 and they lead the output. -/
theorem zero_indegree_scripts_lead_witness :
    sortOrder fsEx ["/d"] scriptsEx = .ok [0, 2, 3, 1] ∧
    seeds (depIndeg fsEx ["/d"] scriptsEx) = [0, 2, 3] ∧
    ∃ P, [0, 2, 3, 1] = seeds (depIndeg fsEx ["/d"] scriptsEx) ++ P := by
  have hord : sortOrder fsEx ["/d"] scriptsEx = .ok [0, 2, 3, 1] := by rfl
  exact ⟨hord, by decide,
    zero_indegree_scripts_lead fsEx ["/d"] scriptsEx [0, 2, 3, 1] hord⟩

theorem no_transGen_of_no_edge (adj : List (List Nat)) (x : Nat)
    (h : ∀ y, ¬ depEdge adj x y) :
    ∀ z, ¬ Relation.TransGen (depEdge adj) x z := by
  intro z hT
  induction hT with
  | single he => exact h _ he
  | tail _ _ ih => exact ih

/-- Counterexample for C7 as stated: in the fixture `[a.sh, b.sh after c.sh,
c.sh, d.sh]` the scripts at indices 1 (`b.sh`) and 3 (`d.sh`) have no ordering
constraint in either direction, are discovered with 1 before 3, yet the
output `[0, 2, 3, 1]` places 3 before 1 — the FIFO queue does not preserve
discovery order for unconstrained pairs. -/
theorem kahn_breaks_discovery_order :
    sortOrder fsEx ["/d"] scriptsEx = .ok [0, 2, 3, 1] ∧
    ¬ Relation.TransGen (depEdge (depGraph fsEx ["/d"] scriptsEx)) 1 3 ∧
    ¬ Relation.TransGen (depEdge (depGraph fsEx ["/d"] scriptsEx)) 3 1 ∧
    (1 : Nat) < 3 ∧
    [0, 2, 3, 1].indexOf 3 < [0, 2, 3, 1].indexOf 1 := by
  have h1 : ∀ y, ¬ depEdge (depGraph fsEx ["/d"] scriptsEx) 1 y := by
    intro y
    have hg : depGraph fsEx ["/d"] scriptsEx = [[], [], [1], []] := by decide
    rw [hg]
    unfold depEdge
    simp
  have h3 : ∀ y, ¬ depEdge (depGraph fsEx ["/d"] scriptsEx) 3 y := by
    intro y
    have hg : depGraph fsEx ["/d"] scriptsEx = [[], [], [1], []] := by decide
    rw [hg]
    unfold depEdge
    simp
  exact ⟨by rfl, no_transGen_of_no_edge _ 1 h1 3, no_transGen_of_no_edge _ 3 h3 1,
    by decide, by decide⟩

/-! ## Lemmas: dependency-name resolution -/

theorem resolveAfters_error_of_unresolved (fs : String → Bool) (dirs : List String) :
    ∀ (l : List (String × List String)),
      (∃ p ∈ l, resolveAfterPath fs dirs p.1 = none) →
      ∃ a refs, resolveAfters fs dirs l = .error (.afterNotFound a refs) ∧
        resolveAfterPath fs dirs a = none ∧ (a, refs) ∈ l := by
  intro l
  induction l with
  | nil =>
    rintro ⟨p, hp, _⟩
    cases hp
  | cons hd rest ih =>
    rintro ⟨p, hp, hnone⟩
    obtain ⟨a, refs⟩ := hd
    cases hres : resolveAfterPath fs dirs a with
    | none =>
      refine ⟨a, refs, ?_, hres, by simp⟩
      unfold resolveAfters
      rw [hres]
    | some pa =>
      have hprest : p ∈ rest := by
        rcases List.mem_cons.mp hp with h | h
        · subst h
          rw [hres] at hnone
          cases hnone
        · exact h
      obtain ⟨a', refs', hrec, hn', hm'⟩ := ih ⟨p, hprest, hnone⟩
      refine ⟨a', refs', ?_, hn', by simp [hm']⟩
      unfold resolveAfters
      rw [hres, hrec]

theorem resolveAfters_ok_of_all (fs : String → Bool) (dirs : List String) :
    ∀ (l : List (String × List String)),
      (∀ p ∈ l, (resolveAfterPath fs dirs p.1).isSome) →
      ∃ c, resolveAfters fs dirs l = .ok c := by
  intro l
  induction l with
  | nil => exact fun _ => ⟨[], rfl⟩
  | cons hd rest ih =>
    intro hall
    obtain ⟨a, refs⟩ := hd
    cases hres : resolveAfterPath fs dirs a with
    | none =>
      have := hall (a, refs) (by simp)
      rw [hres] at this
      cases this
    | some pa =>
      obtain ⟨c, hc⟩ := ih (fun p hp => hall p (by simp [hp]))
      refine ⟨(a, pa) :: c, ?_⟩
      unfold resolveAfters
      rw [hres, hc]

theorem resolveAfters_ok_lookup (fs : String → Bool) (dirs : List String) :
    ∀ (l : List (String × List String)) (c : List (String × String)),
      resolveAfters fs dirs l = .ok c →
      ∀ a, cacheGet c a =
        if a ∈ l.map Prod.fst then resolveAfterPath fs dirs a else none := by
  intro l
  induction l with
  | nil =>
    intro c hc a
    have : c = [] := (Except.ok.inj hc).symm
    subst this
    simp [cacheGet]
  | cons hd rest ih =>
    intro c hc a
    obtain ⟨k, refs⟩ := hd
    cases hres : resolveAfterPath fs dirs k with
    | none =>
      unfold resolveAfters at hc
      rw [hres] at hc
      cases hc
    | some pk =>
      unfold resolveAfters at hc
      rw [hres] at hc
      cases hrest : resolveAfters fs dirs rest with
      | error e =>
        rw [hrest] at hc
        cases hc
      | ok c' =>
        rw [hrest] at hc
        have hcc : c = (k, pk) :: c' := (Except.ok.inj hc).symm
        subst hcc
        by_cases hak : k = a
        · subst hak
          have hcg : cacheGet ((k, pk) :: c') k = some pk := by
            simp [cacheGet]
          rw [hcg, if_pos (by simp), hres]
        · have hcg : cacheGet ((k, pk) :: c') a = cacheGet c' a := by
            simp only [cacheGet, beq_iff_eq]
            rw [if_neg hak]
          rw [hcg, ih c' hrest a]
          by_cases hmem : a ∈ rest.map Prod.fst
          · rw [if_pos hmem, if_pos (by simp [hmem])]
          · rw [if_neg hmem, if_neg ?_]
            intro hx
            rcases List.mem_map.mp hx with ⟨q, hq, hqa⟩
            rcases List.mem_cons.mp hq with h | h
            · subst h
              exact hak hqa
            · exact hmem (List.mem_map.mpr ⟨q, h, hqa⟩)

/-- C3: the resolved order is independent of the schedule in which the
concurrent name-resolution tasks complete — processing the collected
dependency references in any permuted order yields exactly the same
successful output (and failure happens in exactly the same cases), so two
runs on the same discovery input produce identical execution orders. -/
theorem sortScripts_deterministic (fs : String → Bool) (dirs : List String)
    (scripts : List Script) (aft : List (String × List String))
    (hperm : aft.Perm (aftersMap scripts)) :
    (sortOrderOn fs dirs scripts aft).toOption =
      (sortOrder fs dirs scripts).toOption := by
  by_cases hall : ∀ p ∈ aftersMap scripts, (resolveAfterPath fs dirs p.1).isSome
  · obtain ⟨c1, hc1⟩ := resolveAfters_ok_of_all fs dirs aft
      (fun p hp => hall p (hperm.subset hp))
    obtain ⟨c2, hc2⟩ := resolveAfters_ok_of_all fs dirs (aftersMap scripts) hall
    have hfun : cacheGet c1 = cacheGet c2 := by
      funext a
      rw [resolveAfters_ok_lookup fs dirs aft c1 hc1 a,
        resolveAfters_ok_lookup fs dirs (aftersMap scripts) c2 hc2 a]
      have hmemiff : a ∈ aft.map Prod.fst ↔ a ∈ (aftersMap scripts).map Prod.fst :=
        (hperm.map Prod.fst).mem_iff
      by_cases hmem : a ∈ (aftersMap scripts).map Prod.fst
      · rw [if_pos (hmemiff.mpr hmem), if_pos hmem]
      · rw [if_neg (fun hx => hmem (hmemiff.mp hx)), if_neg hmem]
    unfold sortOrderOn sortOrder sortOrderOn
    rw [hc1, hc2]
    dsimp only
    rw [hfun]
  · have hexists : ∃ p ∈ aftersMap scripts, resolveAfterPath fs dirs p.1 = none := by
      push_neg at hall
      obtain ⟨p, hp, hns⟩ := hall
      exact ⟨p, hp, Option.not_isSome_iff_eq_none.mp hns⟩
    obtain ⟨p, hp, hnone⟩ := hexists
    obtain ⟨a1, r1, he1, _, _⟩ := resolveAfters_error_of_unresolved fs dirs aft
      ⟨p, hperm.mem_iff.mpr hp, hnone⟩
    obtain ⟨a2, r2, he2, _, _⟩ := resolveAfters_error_of_unresolved fs dirs
      (aftersMap scripts) ⟨p, hp, hnone⟩
    unfold sortOrderOn sortOrder sortOrderOn
    rw [he1, he2]
    rfl

/-- Witness for C3: swapping the two entries of the reference map of the
cyclic fixture changes neither success nor the result. -/
theorem sortScripts_deterministic_witness :
    List.Perm [("b.sh", ["/d/a.sh"]), ("a.sh", ["/d/b.sh"])] (aftersMap scriptsCyc) ∧
    (sortOrderOn fsEx ["/d"] scriptsCyc
        [("b.sh", ["/d/a.sh"]), ("a.sh", ["/d/b.sh"])]).toOption =
      (sortOrder fsEx ["/d"] scriptsCyc).toOption := by
  have hperm : List.Perm [("b.sh", ["/d/a.sh"]), ("a.sh", ["/d/b.sh"])]
      (aftersMap scriptsCyc) := by
    have : aftersMap scriptsCyc = [("b.sh", ["/d/a.sh"]), ("a.sh", ["/d/b.sh"])] := by
      rfl
    rw [this]
  exact ⟨hperm, sortScripts_deterministic fsEx ["/d"] scriptsCyc _ hperm⟩

/-! ## Lemmas: the collected dependency-reference multimap -/

theorem entry_unique (m : List (String × List String))
    (hnd : (m.map Prod.fst).Nodup) (k : String) (r1 r2 : List String)
    (h1 : (k, r1) ∈ m) (h2 : (k, r2) ∈ m) : r1 = r2 := by
  induction m with
  | nil => cases h1
  | cons p rest ih =>
    obtain ⟨k0, v0⟩ := p
    have hnd2 : (k0 :: rest.map Prod.fst).Nodup := by simpa using hnd
    have hk0 : k0 ∉ rest.map Prod.fst := (List.nodup_cons.mp hnd2).1
    rcases List.mem_cons.mp h1 with ha | ha <;> rcases List.mem_cons.mp h2 with hb | hb
    · rw [(Prod.mk.injEq _ _ _ _).mp ha |>.2, (Prod.mk.injEq _ _ _ _).mp hb |>.2]
    · exfalso
      obtain ⟨hk, _⟩ := (Prod.mk.injEq _ _ _ _).mp ha
      exact hk0 (hk ▸ List.mem_map.mpr ⟨(k, r2), hb, rfl⟩)
    · exfalso
      obtain ⟨hk, _⟩ := (Prod.mk.injEq _ _ _ _).mp hb
      exact hk0 (hk ▸ List.mem_map.mpr ⟨(k, r1), ha, rfl⟩)
    · exact ih (by simpa using (List.nodup_cons.mp hnd2).2) ha hb

theorem key_of_entry {m : List (String × List String)} {k : String}
    {refs : List String} (h : (k, refs) ∈ m) : k ∈ m.map Prod.fst :=
  List.mem_map.mpr ⟨(k, refs), h, rfl⟩

theorem entry_of_key {m : List (String × List String)} {k : String}
    (h : k ∈ m.map Prod.fst) : ∃ refs, (k, refs) ∈ m := by
  obtain ⟨p, hp, hpk⟩ := List.mem_map.mp h
  exact ⟨p.2, by rw [← hpk]; exact hp⟩

theorem mapAppend_keys_mem (m : List (String × List String)) (k v : String) :
    ∀ k', k' ∈ (mapAppend m k v).map Prod.fst ↔
      (k' ∈ m.map Prod.fst ∨ k' = k) := by
  induction m with
  | nil =>
    intro k'
    simp [mapAppend]
  | cons p rest ih =>
    intro k'
    obtain ⟨k0, vs0⟩ := p
    by_cases hk0 : k0 = k
    · subst hk0
      simp only [mapAppend, beq_self_eq_true, if_pos rfl, List.map_cons, List.mem_cons]
      constructor
      · intro h
        exact Or.inl (by simpa using h)
      · intro h
        rcases h with h | h
        · simpa using h
        · simp [h]
    · have hbeq : (k0 == k) = false := by simp [hk0]
      simp only [mapAppend, hbeq, Bool.false_eq_true, if_false, List.map_cons,
        List.mem_cons]
      rw [ih k']
      constructor
      · intro h
        rcases h with h | h | h
        · exact Or.inl (Or.inl h)
        · exact Or.inl (Or.inr h)
        · exact Or.inr h
      · intro h
        rcases h with (h | h) | h
        · exact Or.inl h
        · exact Or.inr (Or.inl h)
        · exact Or.inr (Or.inr h)

theorem mapAppend_keys_nodup (m : List (String × List String)) (k v : String)
    (hnd : (m.map Prod.fst).Nodup) :
    ((mapAppend m k v).map Prod.fst).Nodup := by
  induction m with
  | nil => simp [mapAppend]
  | cons p rest ih =>
    obtain ⟨k0, vs0⟩ := p
    have hnd2 : (k0 :: rest.map Prod.fst).Nodup := by simpa using hnd
    have hnd' := List.nodup_cons.mp hnd2
    by_cases hk0 : k0 = k
    · subst hk0
      simpa [mapAppend] using hnd
    · have hbeq : (k0 == k) = false := by simp [hk0]
      simp only [mapAppend, hbeq, Bool.false_eq_true, if_false, List.map_cons]
      refine List.nodup_cons.mpr ⟨?_, ih hnd'.2⟩
      intro hmem
      rcases (mapAppend_keys_mem rest k v k0).mp hmem with h | h
      · exact hnd'.1 h
      · exact hk0 h

theorem mapAppend_entry (m : List (String × List String)) (k v : String)
    (hnd : (m.map Prod.fst).Nodup) (k' : String) (refs' : List String)
    (hmem : (k', refs') ∈ mapAppend m k v) (x : String) :
    x ∈ refs' ↔
      ((∃ refs, (k', refs) ∈ m ∧ x ∈ refs) ∨ (k' = k ∧ x = v)) := by
  induction m with
  | nil =>
    simp only [mapAppend, List.mem_singleton] at hmem
    obtain ⟨hk, hr⟩ := (Prod.mk.injEq _ _ _ _).mp hmem
    subst hk
    subst hr
    simp
  | cons p rest ih =>
    obtain ⟨k0, vs0⟩ := p
    have hnd2 : (k0 :: rest.map Prod.fst).Nodup := by simpa using hnd
    have hnd' := List.nodup_cons.mp hnd2
    by_cases hk0 : k0 = k
    · subst hk0
      simp only [mapAppend, beq_self_eq_true, if_pos rfl] at hmem
      rcases List.mem_cons.mp hmem with h | h
      · obtain ⟨hk, hr⟩ := (Prod.mk.injEq _ _ _ _).mp h
        subst hk
        subst hr
        constructor
        · intro hx
          rcases List.mem_append.mp hx with hx | hx
          · exact Or.inl ⟨vs0, by simp, hx⟩
          · exact Or.inr ⟨rfl, by simpa using hx⟩
        · intro h
          rcases h with ⟨refs, hrm, hx⟩ | ⟨_, hx⟩
          · rcases List.mem_cons.mp hrm with hh | hh
            · obtain ⟨_, hr2⟩ := (Prod.mk.injEq _ _ _ _).mp hh
              exact List.mem_append_left _ (hr2 ▸ hx)
            · exact absurd (key_of_entry hh) hnd'.1
          · subst hx
            simp
      · have hkne : k' ≠ k0 := by
          intro he
          exact hnd'.1 (he ▸ key_of_entry h)
        constructor
        · intro hx
          exact Or.inl ⟨refs', by simp [h], hx⟩
        · intro hh
          rcases hh with ⟨refs, hrm, hx⟩ | ⟨hke, _⟩
          · rcases List.mem_cons.mp hrm with hh2 | hh2
            · obtain ⟨hke, _⟩ := (Prod.mk.injEq _ _ _ _).mp hh2
              exact absurd hke hkne
            · rw [entry_unique rest hnd'.2 k' refs' refs h hh2]
              exact hx
          · exact absurd hke hkne
    · have hbeq : (k0 == k) = false := by simp [hk0]
      simp only [mapAppend, hbeq, Bool.false_eq_true, if_false] at hmem
      rcases List.mem_cons.mp hmem with h | h
      · obtain ⟨hke, hre⟩ := (Prod.mk.injEq _ _ _ _).mp h
        subst hke
        subst hre
        constructor
        · intro hx
          exact Or.inl ⟨refs', by simp, hx⟩
        · intro hh
          rcases hh with ⟨refs, hrm, hx⟩ | ⟨hke, _⟩
          · rcases List.mem_cons.mp hrm with hh2 | hh2
            · obtain ⟨_, hre2⟩ := (Prod.mk.injEq _ _ _ _).mp hh2
              exact hre2 ▸ hx
            · exact absurd (key_of_entry hh2) hnd'.1
          · exact absurd hke hk0
      · have hkne : k' ≠ k0 := by
          intro he
          rcases (mapAppend_keys_mem rest k v k').mp (key_of_entry h) with hh | hh
          · exact hnd'.1 (he ▸ hh)
          · exact hk0 (he ▸ hh)
        rw [ih hnd'.2 h]
        constructor
        · intro hh
          rcases hh with ⟨refs, hrm, hx⟩ | hh
          · exact Or.inl ⟨refs, by simp [hrm], hx⟩
          · exact Or.inr hh
        · intro hh
          rcases hh with ⟨refs, hrm, hx⟩ | hh
          · rcases List.mem_cons.mp hrm with hh2 | hh2
            · obtain ⟨hke, _⟩ := (Prod.mk.injEq _ _ _ _).mp hh2
              exact absurd hke hkne
            · exact Or.inl ⟨refs, hh2, hx⟩
          · exact Or.inr hh

theorem mapAppend_exists_iff (m : List (String × List String)) (k v : String)
    (hnd : (m.map Prod.fst).Nodup) (k' x : String) :
    (∃ refs, (k', refs) ∈ mapAppend m k v ∧ x ∈ refs) ↔
      ((∃ refs, (k', refs) ∈ m ∧ x ∈ refs) ∨ (k' = k ∧ x = v)) := by
  constructor
  · rintro ⟨refs', hmem, hx⟩
    exact (mapAppend_entry m k v hnd k' refs' hmem x).mp hx
  · intro h
    have hkey : k' ∈ (mapAppend m k v).map Prod.fst := by
      rw [mapAppend_keys_mem]
      rcases h with ⟨refs, hrm, _⟩ | ⟨hke, _⟩
      · exact Or.inl (key_of_entry hrm)
      · exact Or.inr hke
    obtain ⟨refs', hmem⟩ := entry_of_key hkey
    exact ⟨refs', hmem, (mapAppend_entry m k v hnd k' refs' hmem x).mpr h⟩

theorem foldRefs_spec (path : String) :
    ∀ (l : List String) (m : List (String × List String)),
      (m.map Prod.fst).Nodup →
      (((l.foldl (fun m a => mapAppend m a path) m).map Prod.fst).Nodup) ∧
      (∀ k, k ∈ (l.foldl (fun m a => mapAppend m a path) m).map Prod.fst ↔
        (k ∈ m.map Prod.fst ∨ k ∈ l)) ∧
      (∀ k refs, (k, refs) ∈ l.foldl (fun m a => mapAppend m a path) m →
        ∀ x, x ∈ refs ↔
          ((∃ refs0, (k, refs0) ∈ m ∧ x ∈ refs0) ∨ (k ∈ l ∧ x = path))) := by
  intro l
  induction l with
  | nil =>
    intro m hnd
    refine ⟨hnd, by simp, ?_⟩
    intro k refs hmem x
    simp only [List.foldl_nil] at hmem
    constructor
    · intro hx
      exact Or.inl ⟨refs, hmem, hx⟩
    · intro hh
      rcases hh with ⟨refs0, hrm, hx⟩ | ⟨hke, _⟩
      · rw [entry_unique m hnd k refs refs0 hmem hrm]
        exact hx
      · cases hke
  | cons a rest ih =>
    intro m hnd
    have hnd1 : ((mapAppend m a path).map Prod.fst).Nodup :=
      mapAppend_keys_nodup m a path hnd
    obtain ⟨ihn, ihk, ihe⟩ := ih (mapAppend m a path) hnd1
    refine ⟨by simpa using ihn, ?_, ?_⟩
    · intro k
      simp only [List.foldl_cons]
      rw [ihk k, mapAppend_keys_mem m a path k]
      constructor
      · intro hh
        rcases hh with (hh | hh) | hh
        · exact Or.inl hh
        · exact Or.inr (by simp [hh])
        · exact Or.inr (by simp [hh])
      · intro hh
        rcases hh with hh | hh
        · exact Or.inl (Or.inl hh)
        · rcases List.mem_cons.mp hh with hh2 | hh2
          · exact Or.inl (Or.inr hh2)
          · exact Or.inr hh2
    · intro k refs hmem x
      simp only [List.foldl_cons] at hmem
      rw [ihe k refs hmem x, mapAppend_exists_iff m a path hnd k x]
      constructor
      · intro hh
        rcases hh with (hh | ⟨hke, hxe⟩) | ⟨hkr, hxe⟩
        · exact Or.inl hh
        · exact Or.inr ⟨by simp [hke], hxe⟩
        · exact Or.inr ⟨by simp [hkr], hxe⟩
      · intro hh
        rcases hh with hh | ⟨hkl, hxe⟩
        · exact Or.inl (Or.inl hh)
        · rcases List.mem_cons.mp hkl with hh2 | hh2
          · exact Or.inl (Or.inr ⟨hh2, hxe⟩)
          · exact Or.inr ⟨hh2, hxe⟩

theorem foldRefs_exists_iff (path : String) (l : List String)
    (m : List (String × List String)) (hnd : (m.map Prod.fst).Nodup)
    (k x : String) :
    (∃ refs, (k, refs) ∈ l.foldl (fun m a => mapAppend m a path) m ∧ x ∈ refs) ↔
      ((∃ refs0, (k, refs0) ∈ m ∧ x ∈ refs0) ∨ (k ∈ l ∧ x = path)) := by
  obtain ⟨hn, hk, he⟩ := foldRefs_spec path l m hnd
  constructor
  · rintro ⟨refs, hmem, hx⟩
    exact (he k refs hmem x).mp hx
  · intro hh
    have hkey : k ∈ (l.foldl (fun m a => mapAppend m a path) m).map Prod.fst := by
      rw [hk k]
      rcases hh with ⟨refs0, hrm, _⟩ | ⟨hkl, _⟩
      · exact Or.inl (key_of_entry hrm)
      · exact Or.inr hkl
    obtain ⟨refs, hmem⟩ := entry_of_key hkey
    exact ⟨refs, hmem, (he k refs hmem x).mpr hh⟩

theorem aftersMap_go (scripts : List Script) :
    ∀ (m : List (String × List String)),
      (m.map Prod.fst).Nodup →
      ((scripts.foldl
          (fun m s =>
            match s.after with
            | none => m
            | some l => l.foldl (fun m a => mapAppend m a s.absolutePathname) m)
          m).map Prod.fst).Nodup ∧
      (∀ k refs,
        (k, refs) ∈ scripts.foldl
          (fun m s =>
            match s.after with
            | none => m
            | some l => l.foldl (fun m a => mapAppend m a s.absolutePathname) m)
          m →
        ∀ x, x ∈ refs ↔
          ((∃ refs0, (k, refs0) ∈ m ∧ x ∈ refs0) ∨
            (∃ s ∈ scripts, s.absolutePathname = x ∧ k ∈ s.after.getD []))) ∧
      (∀ k, k ∈ (scripts.foldl
          (fun m s =>
            match s.after with
            | none => m
            | some l => l.foldl (fun m a => mapAppend m a s.absolutePathname) m)
          m).map Prod.fst ↔
        (k ∈ m.map Prod.fst ∨ ∃ s ∈ scripts, k ∈ s.after.getD [])) := by
  induction scripts with
  | nil =>
    intro m hnd
    refine ⟨hnd, ?_, by simp⟩
    intro k refs hmem x
    simp only [List.foldl_nil] at hmem
    constructor
    · intro hx
      exact Or.inl ⟨refs, hmem, hx⟩
    · intro hh
      rcases hh with ⟨refs0, hrm, hx⟩ | ⟨s, hs, _⟩
      · rw [entry_unique m hnd k refs refs0 hmem hrm]
        exact hx
      · cases hs
  | cons s rest ih =>
    intro m hnd
    cases hafter : s.after with
    | none =>
      obtain ⟨ihn, ihe, ihk⟩ := ih m hnd
      refine ⟨by simpa [hafter] using ihn, ?_, ?_⟩
      · intro k refs hmem x
        simp only [List.foldl_cons, hafter] at hmem
        rw [ihe k refs hmem x]
        constructor
        · intro hh
          rcases hh with hh | ⟨s', hs', hrest⟩
          · exact Or.inl hh
          · exact Or.inr ⟨s', by simp [hs'], hrest⟩
        · intro hh
          rcases hh with hh | ⟨s', hs', hp, hin⟩
          · exact Or.inl hh
          · rcases List.mem_cons.mp hs' with hh2 | hh2
            · subst hh2
              rw [hafter] at hin
              cases hin
            · exact Or.inr ⟨s', hh2, hp, hin⟩
      · intro k
        simp only [List.foldl_cons, hafter]
        rw [ihk k]
        constructor
        · intro hh
          rcases hh with hh | ⟨s', hs', hin⟩
          · exact Or.inl hh
          · exact Or.inr ⟨s', by simp [hs'], hin⟩
        · intro hh
          rcases hh with hh | ⟨s', hs', hin⟩
          · exact Or.inl hh
          · rcases List.mem_cons.mp hs' with hh2 | hh2
            · subst hh2
              rw [hafter] at hin
              cases hin
            · exact Or.inr ⟨s', hh2, hin⟩
    | some l =>
      have hnd1 : ((l.foldl (fun m a => mapAppend m a s.absolutePathname) m).map
          Prod.fst).Nodup := (foldRefs_spec s.absolutePathname l m hnd).1
      obtain ⟨ihn, ihe, ihk⟩ := ih _ hnd1
      refine ⟨by simpa [hafter] using ihn, ?_, ?_⟩
      · intro k refs hmem x
        simp only [List.foldl_cons, hafter] at hmem
        rw [ihe k refs hmem x,
          foldRefs_exists_iff s.absolutePathname l m hnd k x]
        constructor
        · intro hh
          rcases hh with (hh | ⟨hkl, hxe⟩) | ⟨s', hs', hp, hin⟩
          · exact Or.inl hh
          · exact Or.inr ⟨s, by simp, hxe.symm, by rw [hafter]; exact hkl⟩
          · exact Or.inr ⟨s', by simp [hs'], hp, hin⟩
        · intro hh
          rcases hh with hh | ⟨s', hs', hp, hin⟩
          · exact Or.inl (Or.inl hh)
          · rcases List.mem_cons.mp hs' with hh2 | hh2
            · subst hh2
              rw [hafter] at hin
              exact Or.inl (Or.inr ⟨by simpa using hin, hp.symm⟩)
            · exact Or.inr ⟨s', hh2, hp, hin⟩
      · intro k
        simp only [List.foldl_cons, hafter]
        rw [ihk k, (foldRefs_spec s.absolutePathname l m hnd).2.1 k]
        constructor
        · intro hh
          rcases hh with (hh | hh) | ⟨s', hs', hin⟩
          · exact Or.inl hh
          · exact Or.inr ⟨s, by simp, by rw [hafter]; exact hh⟩
          · exact Or.inr ⟨s', by simp [hs'], hin⟩
        · intro hh
          rcases hh with hh | ⟨s', hs', hin⟩
          · exact Or.inl (Or.inl hh)
          · rcases List.mem_cons.mp hs' with hh2 | hh2
            · subst hh2
              rw [hafter] at hin
              exact Or.inl (Or.inr (by simpa using hin))
            · exact Or.inr ⟨s', hh2, hin⟩

theorem aftersMap_refs (scripts : List Script) (k : String) (refs : List String)
    (hmem : (k, refs) ∈ aftersMap scripts) (x : String) :
    x ∈ refs ↔ ∃ s ∈ scripts, s.absolutePathname = x ∧ k ∈ s.after.getD [] := by
  have h := (aftersMap_go scripts [] (by simp)).2.1 k refs hmem x
  rw [h]
  simp

theorem aftersMap_keys (scripts : List Script) (k : String) :
    k ∈ (aftersMap scripts).map Prod.fst ↔ ∃ s ∈ scripts, k ∈ s.after.getD [] := by
  have h := (aftersMap_go scripts [] (by simp)).2.2 k
  unfold aftersMap
  rw [h]
  simp

theorem resolveAfterPath_first (fs : String → Bool) (a : String) :
    ∀ (pre : List String) (d : String) (post : List String),
      (∀ d2 ∈ pre, fs (pathJoin d2 a) = false) → fs (pathJoin d a) = true →
      resolveAfterPath fs (pre ++ d :: post) a = some (pathJoin d a) := by
  intro pre
  induction pre with
  | nil =>
    intro d post _ hd
    unfold resolveAfterPath
    simp only [List.nil_append, List.map_cons]
    rw [List.find?_cons_of_pos _ hd]
  | cons d2 pre' ih =>
    intro d post hpre hd
    unfold resolveAfterPath
    simp only [List.cons_append, List.map_cons]
    rw [List.find?_cons_of_neg _ (by simp [hpre d2 (by simp)])]
    exact ih d post (fun x hx => hpre x (by simp [hx])) hd

/-- C6: dependency-name resolution probes the known directories in priority
order and uses the first directory whose joined path exists; and when some
referenced name matches no directory, `sortScripts` throws the
unresolved-dependency error, which names the unresolved name together with
exactly the absolute pathnames of the scripts that reference it, before any
script executes. -/
theorem unresolved_dependency_fails (fs : String → Bool) (dirs : List String)
    (scripts : List Script) :
    (∀ (a : String) (pre : List String) (d : String) (post : List String),
      (∀ d2 ∈ pre, fs (pathJoin d2 a) = false) → fs (pathJoin d a) = true →
      resolveAfterPath fs (pre ++ d :: post) a = some (pathJoin d a)) ∧
    ((∃ s ∈ scripts, ∃ a ∈ s.after.getD [], resolveAfterPath fs dirs a = none) →
      ∃ a refs, sortScripts fs dirs scripts = .error (.afterNotFound a refs) ∧
        resolveAfterPath fs dirs a = none ∧
        (∀ x, x ∈ refs ↔
          ∃ s ∈ scripts, s.absolutePathname = x ∧ a ∈ s.after.getD []) ∧
        ∀ exitCode, startedScripts fs dirs scripts exitCode = []) := by
  constructor
  · intro a pre d post hpre hd
    exact resolveAfterPath_first fs a pre d post hpre hd
  · rintro ⟨s, hs, a0, ha0, hnone⟩
    have hkey : a0 ∈ (aftersMap scripts).map Prod.fst :=
      (aftersMap_keys scripts a0).mpr ⟨s, hs, ha0⟩
    obtain ⟨refs0, hmem0⟩ := entry_of_key hkey
    obtain ⟨a, refs, herr, hnone', hmem⟩ :=
      resolveAfters_error_of_unresolved fs dirs (aftersMap scripts)
        ⟨(a0, refs0), hmem0, hnone⟩
    have hsort : sortOrder fs dirs scripts = .error (.afterNotFound a refs) := by
      unfold sortOrder sortOrderOn
      rw [herr]
    refine ⟨a, refs, ?_, hnone', ?_, ?_⟩
    · unfold sortScripts
      rw [hsort]
    · intro x
      exact aftersMap_refs scripts a refs hmem x
    · intro exitCode
      unfold startedScripts runPipeline sortScripts
      rw [hsort]

/-- Witness for C6: `zz.sh` is referenced by `a.sh` but exists in no known
directory, so the sort throws the unresolved-dependency error naming `zz.sh`
and `/d/a.sh`; and `a.sh` itself resolves to the first directory that holds
it, skipping an earlier directory without it. -/
theorem unresolved_dependency_fails_witness :
    resolveAfterPath fsEx (["/e"] ++ "/d" :: []) "a.sh" =
      some (pathJoin "/d" "a.sh") ∧
    (∃ s ∈ scriptsMissing, ∃ a ∈ s.after.getD [],
      resolveAfterPath fsEx ["/d"] a = none) ∧
    ∃ a refs, sortScripts fsEx ["/d"] scriptsMissing =
        .error (.afterNotFound a refs) ∧
      resolveAfterPath fsEx ["/d"] a = none ∧
      (∀ x, x ∈ refs ↔
        ∃ s ∈ scriptsMissing, s.absolutePathname = x ∧ a ∈ s.after.getD []) ∧
      ∀ exitCode, startedScripts fsEx ["/d"] scriptsMissing exitCode = [] := by
  have h := unresolved_dependency_fails fsEx ["/d"] scriptsMissing
  have hhyp : ∃ s ∈ scriptsMissing, ∃ a ∈ s.after.getD [],
      resolveAfterPath fsEx ["/d"] a = none := by
    refine ⟨mkScript "a.sh" (some ["zz.sh"]), by decide, "zz.sh", by decide, by decide⟩
  refine ⟨?_, hhyp, h.2 hhyp⟩
  exact h.1 "a.sh" ["/e"] "/d" [] (by decide) (by decide)

end VSS
